import Mathlib

/-
  Verification of the Othello engine in `main.py` (minimax with alpha-beta
  pruning).  The Python source is shallowly embedded: the numpy 8x8 int
  board becomes `List (List Int)`, the color constants keep their integer
  encodings, and the two `while` loops (the directional scan in
  `captures_in_dir` and the flip loop in `capture`) are rendered as
  fuel-bounded recursions with fuel 16; starting from an on-board cell a
  ray leaves the 8x8 grid after at most 8 steps and an off-board read is
  empty, so fuel 16 is never exhausted on the positions the source reaches.
  The mutually recursive search (`minimax_value` / `find_max_score` /
  `find_min_score`) is embedded with an explicit recursion fuel
  (`minimax_fuel`); fuel `2*depth + 2` is proved sufficient below, which is
  exactly the "a forced pass keeps the depth but cannot happen twice in a
  row" termination argument of the source.
-/

abbrev Board := List (List Int)

-- Color and outcome constants from main.py.
abbrev WHITE : Int := 1
abbrev NOBODY : Int := 0
abbrev BLACK : Int := -1
abbrev TIE : Int := 2
abbrev WIN_VAL : Int := 100

-- Python's sys.maxsize on a 64-bit build.
abbrev SYS_MAXSIZE : Int := 2 ^ 63 - 1

-- Models float("-inf") / float("inf") used at the root of the search:
-- any value strictly below / above every score ever produced behaves
-- identically, and these lie strictly outside [-SYS_MAXSIZE, SYS_MAXSIZE].
abbrev NEG_INF : Int := -(2 ^ 63)
abbrev POS_INF : Int := 2 ^ 63

/-- The 8 direction deltas from main.py. -/
def DIRECTIONS : List (Int × Int) :=
  [(-1, -1), (-1, 0), (-1, 1), (0, -1), (0, 1), (1, -1), (1, 0), (1, 1)]

/-- In-board predicate: both coordinates in [0, 8). NUM_COLS = 8 inlined. -/
def inB (row col : Int) : Prop :=
  0 ≤ row ∧ row < 8 ∧ 0 ≤ col ∧ col < 8

instance (row col : Int) : Decidable (inB row col) := by
  unfold inB; infer_instance

/-- `board[row][col]`.  Every read the Python source performs is at an
in-range index (either guarded explicitly or guaranteed by the capture
invariant), so out-of-range reads are modelled as empty. -/
def bget (board : Board) (row col : Int) : Int :=
  if inB row col then (board.getD row.toNat []).getD col.toNat 0 else 0

/-- `board[row][col] = v`.  Every write the source performs is at an
in-range index; out-of-range writes are modelled as no-ops. -/
def bset (board : Board) (row col : Int) (v : Int) : Board :=
  if inB row col then
    board.set row.toNat ((board.getD row.toNat []).set col.toNat v)
  else board

/-- Well-formed 8x8 board: the data-model invariant (8 rows of 8 cells,
each cell one of BLACK/NOBODY/WHITE). -/
def wf8 (board : Board) : Prop :=
  board.length = 8 ∧ ∀ row ∈ board, row.length = 8 ∧
    ∀ x ∈ row, x = BLACK ∨ x = NOBODY ∨ x = WHITE

instance (board : Board) : Decidable (wf8 board) := by
  unfold wf8; infer_instance

/-- The scan loop of `captures_in_dir`: step along the direction until a
friendly piece (true), an empty cell (false) or the board edge (false). -/
def scan_run (board : Board) (friendly_color scan_row scan_col row_delta col_delta : Int) :
    Nat → Bool
  | 0 => false
  | fuel + 1 =>
    if inB scan_row scan_col then
      if bget board scan_row scan_col = NOBODY then false
      else if bget board scan_row scan_col = friendly_color then true
      else scan_run board friendly_color (scan_row + row_delta) (scan_col + col_delta)
            row_delta col_delta fuel
    else false

/-- `captures_in_dir` from main.py. -/
def captures_in_dir (board : Board) (row row_delta col col_delta : Int)
    (white_turn : Bool) : Bool :=
  if row + row_delta < 0 ∨ 8 ≤ row + row_delta then false
  else if col + col_delta < 0 ∨ 8 ≤ col + col_delta then false
  else
    let enemy_color := if white_turn then BLACK else WHITE
    if bget board (row + row_delta) (col + col_delta) ≠ enemy_color then false
    else
      let friendly_color := if white_turn then WHITE else BLACK
      scan_run board friendly_color (row + 2 * row_delta) (col + 2 * col_delta)
        row_delta col_delta 16

/-- `can_capture` from main.py. -/
def can_capture (board : Board) (row col : Int) (white_turn : Bool) : Bool :=
  DIRECTIONS.any fun d => captures_in_dir board row d.1 col d.2 white_turn

/-- `generate_legal_moves` from main.py: row-major scan of the empty cells
that capture something. -/
def generate_legal_moves (board : Board) (white_turn : Bool) : List (Int × Int) :=
  ((List.range 8).map fun row =>
    (List.range 8).filterMap fun col =>
      if bget board (row : Int) (col : Int) ≠ NOBODY then none
      else if can_capture board (row : Int) (col : Int) white_turn then
        some ((row : Int), (col : Int))
      else none).flatten

/-- The flip loop of `capture`: starting at the adjacent cell, flip while
the cell holds the enemy color. -/
def flip_run (board : Board) (enemy_color flip_row flip_col row_delta col_delta : Int) :
    Nat → Board
  | 0 => board
  | fuel + 1 =>
    if bget board flip_row flip_col = enemy_color then
      flip_run (bset board flip_row flip_col (-enemy_color)) enemy_color
        (flip_row + row_delta) (flip_col + col_delta) row_delta col_delta fuel
    else board

/-- `capture` from main.py: for each of the 8 directions (on the board as
mutated so far), if the capture test holds, flip the adjacent enemy run. -/
def capture (board : Board) (row col : Int) (white_turn : Bool) : Board :=
  let enemy_color := if white_turn then BLACK else WHITE
  DIRECTIONS.foldl (fun bd d =>
    if captures_in_dir bd row d.1 col d.2 white_turn then
      flip_run bd enemy_color (row + d.1) (col + d.2) d.1 d.2 16
    else bd) board

/-- `play_move` from main.py: copy, place the piece, resolve captures.
The embedding is pure, so the input board is unchanged by construction
(the deepcopy of the source). -/
def play_move (board : Board) (move : Int × Int) (white_turn : Bool) : Board :=
  let new_board := bset board move.1 move.2 (if white_turn then WHITE else BLACK)
  capture new_board move.1 move.2 white_turn

/-- `np.count_nonzero(board == v)`: the number of cells equal to v. -/
def count_cells (board : Board) (v : Int) : Nat :=
  (board.map fun row => row.count v).sum

/-- `evaluation_function` from main.py. -/
def evaluation_function (board : Board) : Int :=
  (count_cells board WHITE : Int) - (count_cells board BLACK : Int)

/-- `find_winner` from main.py. -/
def find_winner (board : Board) : Int :=
  let white_count := count_cells board WHITE
  let black_count := count_cells board BLACK
  if white_count > black_count then WHITE
  else if white_count < black_count then BLACK
  else TIE

/-- `check_game_over` from main.py. -/
def check_game_over (board : Board) : Int :=
  if generate_legal_moves board true ≠ [] then NOBODY
  else if generate_legal_moves board false ≠ [] then NOBODY
  else find_winner board

/-- `starting_board` from main.py. -/
def starting_board : Board :=
  let board : Board := List.replicate 8 (List.replicate 8 0)
  let board := bset board 3 3 WHITE
  let board := bset board 3 4 BLACK
  let board := bset board 4 3 BLACK
  bset board 4 4 WHITE

/-
  The search.  `find_max_score` / `find_min_score` / `minimax_value` are
  mutually recursive in the source; here the recursive call is passed in
  (`recur`) and tied at `minimax_fuel`, which counts recursion fuel.  The
  `for m in legal_moves` loops with their break statements become
  `find_max_loop` / `find_min_loop`.  In `find_max_score` only `maxScore`
  and `alpha` change across iterations (`beta` is fixed), and dually in
  `find_min_score`.
-/

/-- The loop body of `find_max_score`: for each move compute the child
score at depth-1, raise `maxScore` and `alpha`, break when `beta ≤ alpha`. -/
def find_max_loop (recur : Board → Int → Option Int) (board : Board) :
    List (Int × Int) → Int → Int → Int → Option Int
  | [], maxScore, _, _ => some maxScore
  | m :: ms, maxScore, alpha, beta => do
    let score ← recur (play_move board m true) alpha
    let maxScore := if score > maxScore then score else maxScore
    let alpha := if score > alpha then score else alpha
    if beta ≤ alpha then some maxScore
    else find_max_loop recur board ms maxScore alpha beta

/-- `find_max_score` from main.py (with the recursive call abstracted).
As in the source, an empty move list recurses into Black's turn at the
SAME depth; otherwise each move is searched at depth - 1. -/
def find_max_score (recur : Board → Bool → Nat → Int → Int → Option Int)
    (maxScore : Int) (board : Board) (white_turn : Bool) (search_depth : Nat)
    (alpha beta : Int) : Option Int :=
  let legal_moves := generate_legal_moves board true
  if legal_moves.length = 0 then recur board false search_depth alpha beta
  else
    find_max_loop (fun b a => recur b false (search_depth - 1) a beta)
      board legal_moves maxScore alpha beta

/-- The loop body of `find_min_score`. -/
def find_min_loop (recur : Board → Int → Option Int) (board : Board) :
    List (Int × Int) → Int → Int → Int → Option Int
  | [], minScore, _, _ => some minScore
  | m :: ms, minScore, alpha, beta => do
    let score ← recur (play_move board m false) beta
    let minScore := min minScore score
    let beta := min beta score
    if beta ≤ alpha then some minScore
    else find_min_loop recur board ms minScore alpha beta

/-- `find_min_score` from main.py (with the recursive call abstracted). -/
def find_min_score (recur : Board → Bool → Nat → Int → Int → Option Int)
    (minScore : Int) (board : Board) (white_turn : Bool) (search_depth : Nat)
    (alpha beta : Int) : Option Int :=
  let legal_moves := generate_legal_moves board false
  if legal_moves.length = 0 then recur board true search_depth alpha beta
  else
    find_min_loop (fun b bta => recur b true (search_depth - 1) alpha bta)
      board legal_moves minScore alpha beta

/-- `minimax_value` from main.py, with explicit recursion fuel (`none` only
when the fuel runs out; fuel 2*depth+2 is proved sufficient below). -/
def minimax_fuel : Nat → Board → Bool → Nat → Int → Int → Option Int
  | 0, _, _, _, _, _ => none
  | fuel + 1, board, white_turn, search_depth, alpha, beta =>
    if search_depth = 0 then
      some ((count_cells board WHITE : Int) - (count_cells board BLACK : Int))
    else
      let game_condition := check_game_over board
      if game_condition = TIE then some 0
      else if game_condition = WHITE then some WIN_VAL
      else if game_condition = BLACK then some (WIN_VAL * -1)
      else if white_turn then
        find_max_score (minimax_fuel fuel) (SYS_MAXSIZE * -1) board white_turn
          search_depth alpha beta
      else
        find_min_score (minimax_fuel fuel) SYS_MAXSIZE board white_turn
          search_depth alpha beta

/-- `minimax_value`: the total function the claims speak about, given its
(`sufficient`) fuel 2*depth+2. -/
def minimax_value (board : Board) (white_turn : Bool) (search_depth : Nat)
    (alpha beta : Int) : Int :=
  (minimax_fuel (2 * search_depth + 2) board white_turn search_depth alpha beta).getD 0

/-
  The exhaustive (unpruned) reference search for the refinement claim.
  Modelled from the spec's words: an exhaustive depth-limited minimax with
  the same heuristic, the same terminal scoring and the same pass rule,
  that never prunes.
-/

/-- Fold max over a score list, starting below every reachable score. -/
def listMax (l : List Int) : Int := l.foldl max (SYS_MAXSIZE * -1)

/-- Fold min over a score list, starting above every reachable score. -/
def listMin (l : List Int) : Int := l.foldl min SYS_MAXSIZE

/-- The child scores of every legal move, in order. -/
def exh_scores (recur : Board → Option Int) (board : Board) (white_turn : Bool) :
    List (Int × Int) → Option (List Int)
  | [] => some []
  | m :: ms => do
    let v ← recur (play_move board m white_turn)
    let vs ← exh_scores recur board white_turn ms
    some (v :: vs)

/-- Exhaustive depth-limited minimax: same heuristic, terminal scoring and
pass rule as `minimax_value`, but every legal move is searched (no
alpha-beta window, no pruning). -/
def minimax_exh_fuel : Nat → Board → Bool → Nat → Option Int
  | 0, _, _, _ => none
  | fuel + 1, board, white_turn, search_depth =>
    if search_depth = 0 then
      some ((count_cells board WHITE : Int) - (count_cells board BLACK : Int))
    else
      let game_condition := check_game_over board
      if game_condition = TIE then some 0
      else if game_condition = WHITE then some WIN_VAL
      else if game_condition = BLACK then some (WIN_VAL * -1)
      else if white_turn then
        let legal_moves := generate_legal_moves board true
        if legal_moves.length = 0 then minimax_exh_fuel fuel board false search_depth
        else do
          let vs ← exh_scores (fun b => minimax_exh_fuel fuel b false (search_depth - 1))
            board true legal_moves
          some (listMax vs)
      else
        let legal_moves := generate_legal_moves board false
        if legal_moves.length = 0 then minimax_exh_fuel fuel board true search_depth
        else do
          let vs ← exh_scores (fun b => minimax_exh_fuel fuel b true (search_depth - 1))
            board false legal_moves
          some (listMin vs)

/-- The exhaustive search as a total function (same sufficient fuel). -/
def minimax_exh (board : Board) (white_turn : Bool) (search_depth : Nat) : Int :=
  (minimax_exh_fuel (2 * search_depth + 2) board white_turn search_depth).getD 0

/-- How `play()` in main.py scores one root candidate move for the AI
(White): it applies the move and calls
`minimax_value(new_board, True, depth, -inf, inf)` - the side to move is
passed as White again and the depth is not decremented. -/
def root_candidate_value (board : Board) (move : Int × Int) (depth : Nat) : Int :=
  minimax_value (play_move board move true) true depth NEG_INF POS_INF

/-- The root candidate scoring the claim describes: recurse into the
opponent's turn at depth - 1 with a freshly reset full window. -/
def root_candidate_value_claim (board : Board) (move : Int × Int) (depth : Nat) : Int :=
  minimax_value (play_move board move true) false (depth - 1) NEG_INF POS_INF

/-! ### Basic board lemmas -/

lemma getD_set_self {α : Type} (l : List α) (i : Nat) (x d : α) (h : i < l.length) :
    (l.set i x).getD i d = x := by
  induction l generalizing i with
  | nil => simp at h
  | cons a l ih =>
    cases i with
    | zero => rfl
    | succ i => simpa using ih i (by simpa using h)

lemma getD_set_other {α : Type} (l : List α) (i j : Nat) (x d : α) (h : i ≠ j) :
    (l.set i x).getD j d = l.getD j d := by
  induction l generalizing i j with
  | nil => rfl
  | cons a l ih =>
    cases i with
    | zero => cases j with
      | zero => exact absurd rfl h
      | succ j => rfl
    | succ i => cases j with
      | zero => rfl
      | succ j => simpa using ih i j (by omega)

lemma toNat_inj_of_nonneg {a b : Int} (ha : 0 ≤ a) (hb : 0 ≤ b) (h : a ≠ b) :
    a.toNat ≠ b.toNat := by omega

lemma bget_offboard {board : Board} {r c : Int} (h : ¬ inB r c) : bget board r c = 0 := by
  simp [bget, h]

lemma bget_bset_eq {board : Board} (hwf : wf8 board) {r c : Int} (h : inB r c) (v : Int) :
    bget (bset board r c v) r c = v := by
  obtain ⟨hlen, hrows⟩ := hwf
  obtain ⟨hr0, hr8, hc0, hc8⟩ := h
  have hrn : r.toNat < board.length := by omega
  have hrow : board.getD r.toNat [] = board[r.toNat] := List.getD_eq_getElem board [] hrn
  have hrowlen : (board[r.toNat]).length = 8 :=
    (hrows _ (board.getElem_mem hrn)).1
  have hcn : c.toNat < (board.getD r.toNat []).length := by rw [hrow]; omega
  simp only [bget, bset, if_pos (show inB r c from ⟨hr0, hr8, hc0, hc8⟩)]
  rw [getD_set_self _ _ _ _ (by simpa using hrn)]
  exact getD_set_self _ _ _ _ hcn

lemma set_oob {α : Type} (l : List α) (i : Nat) (x : α) (h : l.length ≤ i) :
    l.set i x = l := by
  induction l generalizing i with
  | nil => rfl
  | cons a l ih =>
    cases i with
    | zero => simp at h
    | succ i => simpa using ih i (by simpa using h)

lemma bget_bset_ne {board : Board} {r c r' c' : Int} (v : Int)
    (h : ¬ (r' = r ∧ c' = c)) : bget (bset board r c v) r' c' = bget board r' c' := by
  by_cases hin : inB r c
  · by_cases hin' : inB r' c'
    · simp only [bget, bset, if_pos hin, if_pos hin']
      by_cases hlt : r.toNat < board.length
      · by_cases hr : r'.toNat = r.toNat
        · have hreq : r' = r := by
            obtain ⟨a, _, _, _⟩ := hin; obtain ⟨a', _, _, _⟩ := hin'; omega
          have hcnn : c.toNat ≠ c'.toNat := by
            have hcne : c' ≠ c := fun hc => h ⟨hreq, hc⟩
            obtain ⟨_, _, hc0, _⟩ := hin; obtain ⟨_, _, hc0', _⟩ := hin'; omega
          rw [hr, getD_set_self _ _ _ _ hlt, getD_set_other _ _ _ _ _ hcnn]
        · rw [getD_set_other _ _ _ _ _ (fun hh => hr hh.symm)]
      · rw [set_oob _ _ _ (by omega)]
    · simp only [bget, bset, if_pos hin, if_neg hin']
  · simp [bset, hin]

lemma wf8_bset {board : Board} (hwf : wf8 board) {r c v : Int}
    (hv : v = BLACK ∨ v = NOBODY ∨ v = WHITE) : wf8 (bset board r c v) := by
  obtain ⟨hlen, hrows⟩ := hwf
  unfold bset
  by_cases hin : inB r c
  · rw [if_pos hin]
    by_cases hr : r.toNat < board.length
    · refine ⟨by simpa using hlen, ?_⟩
      intro row hrow
      rcases List.mem_or_eq_of_mem_set hrow with hmem | heq
      · exact hrows row hmem
      · subst heq
        have hmem : board.getD r.toNat [] ∈ board := by
          rw [List.getD_eq_getElem board [] hr]; exact board.getElem_mem hr
        have hbase := hrows _ hmem
        refine ⟨by simpa using hbase.1, ?_⟩
        intro x hx
        rcases List.mem_or_eq_of_mem_set hx with hxm | hxe
        · exact hbase.2 x hxm
        · subst hxe; exact hv
    · rw [set_oob _ _ _ (by omega)]
      exact ⟨hlen, hrows⟩
  · rw [if_neg hin]; exact ⟨hlen, hrows⟩

lemma bget_cases {board : Board} (hwf : wf8 board) (r c : Int) :
    bget board r c = BLACK ∨ bget board r c = NOBODY ∨ bget board r c = WHITE := by
  obtain ⟨hlen, hrows⟩ := hwf
  unfold bget
  by_cases hin : inB r c
  · rw [if_pos hin]
    obtain ⟨hr0, hr8, hc0, hc8⟩ := hin
    have hrn : r.toNat < board.length := by omega
    rw [List.getD_eq_getElem board [] hrn]
    have hrow := hrows _ (board.getElem_mem hrn)
    have hcn : c.toNat < (board[r.toNat]).length := by rw [hrow.1]; omega
    rw [List.getD_eq_getElem _ 0 hcn]
    exact hrow.2 _ (List.getElem_mem hcn)
  · rw [if_neg hin]; exact Or.inr (Or.inl rfl)

lemma count_rows_le (b : Board) (v : Int) (h : ∀ row ∈ b, row.length = 8) :
    (b.map fun row => row.count v).sum ≤ 8 * b.length := by
  induction b with
  | nil => simp
  | cons row b ih =>
    have h1 : row.count v ≤ 8 := by
      have := List.count_le_length (l := row) (a := v)
      rw [h row (by simp)] at this; exact this
    have h2 := ih (fun r hr => h r (by simp [hr]))
    simp only [List.map_cons, List.sum_cons, List.length_cons]
    omega

lemma count_cells_le {board : Board} (hwf : wf8 board) (v : Int) :
    count_cells board v ≤ 64 := by
  obtain ⟨hlen, hrows⟩ := hwf
  have := count_rows_le board v (fun r hr => (hrows r hr).1)
  rw [hlen] at this
  simpa [count_cells] using this

lemma evaluation_bound {board : Board} (hwf : wf8 board) :
    -64 ≤ evaluation_function board ∧ evaluation_function board ≤ 64 := by
  have hw := count_cells_le hwf WHITE
  have hb := count_cells_le hwf BLACK
  unfold evaluation_function
  omega

lemma wf8_flip_run (e : Int) (he : e = BLACK ∨ e = WHITE) :
    ∀ (fuel : Nat) (b : Board) (fr fc dr dc : Int), wf8 b →
      wf8 (flip_run b e fr fc dr dc fuel) := by
  intro fuel
  induction fuel with
  | zero => intro b fr fc dr dc hb; exact hb
  | succ fuel ih =>
    intro b fr fc dr dc hb
    unfold flip_run
    by_cases h : bget b fr fc = e
    · rw [if_pos h]
      exact ih _ _ _ _ _ (wf8_bset hb (by rcases he with h | h <;> subst h <;> simp))
    · rw [if_neg h]; exact hb

lemma wf8_capture {board : Board} (hwf : wf8 board) (row col : Int) (white_turn : Bool) :
    wf8 (capture board row col white_turn) := by
  unfold capture
  generalize DIRECTIONS = ds
  induction ds generalizing board with
  | nil => exact hwf
  | cons d ds ih =>
    simp only [List.foldl_cons]
    apply ih
    by_cases h : captures_in_dir board row d.1 col d.2 white_turn
    · rw [if_pos h]
      exact wf8_flip_run _ (by cases white_turn <;> simp) 16 _ _ _ _ _ hwf
    · rw [if_neg h]; exact hwf

lemma wf8_play_move {board : Board} (hwf : wf8 board) (move : Int × Int)
    (white_turn : Bool) : wf8 (play_move board move white_turn) := by
  unfold play_move
  exact wf8_capture (wf8_bset hwf (by cases white_turn <;> simp)) _ _ _

lemma find_winner_ne_nobody (board : Board) : find_winner board ≠ NOBODY := by
  show (if count_cells board WHITE > count_cells board BLACK then WHITE
    else if count_cells board WHITE < count_cells board BLACK then BLACK else TIE) ≠ NOBODY
  split_ifs <;> decide

/-! ### C6: game-over detection and winner -/

/-- C6: `check_game_over` reports a non-NOBODY outcome iff neither side has
a legal move, and in that case the outcome is decided strictly by piece
counts (strictly more White pieces: WHITE wins; strictly more Black: BLACK
wins; equal: TIE). -/
theorem c6_game_over_iff_and_winner (board : Board) :
    (check_game_over board ≠ NOBODY ↔
      generate_legal_moves board true = [] ∧ generate_legal_moves board false = []) ∧
    (generate_legal_moves board true = [] → generate_legal_moves board false = [] →
      check_game_over board =
        (if count_cells board BLACK < count_cells board WHITE then WHITE
         else if count_cells board WHITE < count_cells board BLACK then BLACK
         else TIE)) := by
  constructor
  · unfold check_game_over
    by_cases h1 : generate_legal_moves board true = []
    · by_cases h2 : generate_legal_moves board false = []
      · rw [if_neg (not_not_intro h1), if_neg (not_not_intro h2)]
        simp [find_winner_ne_nobody board, h1, h2]
      · rw [if_neg (not_not_intro h1), if_pos h2]
        simp [h2]
    · rw [if_pos h1]
      simp [h1]
  · intro h1 h2
    unfold check_game_over
    rw [if_neg (not_not_intro h1), if_neg (not_not_intro h2)]
    rfl

/-! ### C5: terminal scoring -/

lemma check_game_over_terminal {board : Board}
    (h1 : generate_legal_moves board true = [])
    (h2 : generate_legal_moves board false = []) :
    check_game_over board =
      (if count_cells board BLACK < count_cells board WHITE then WHITE
       else if count_cells board WHITE < count_cells board BLACK then BLACK
       else TIE) := by
  unfold check_game_over
  rw [if_neg (not_not_intro h1), if_neg (not_not_intro h2)]
  rfl

/-- C5: on a board where neither side can move, at any remaining depth
d ≥ 1, either side to move, and any alpha/beta, `minimax_value` returns
WIN_VAL / -WIN_VAL / 0 by strict piece-count comparison; and WIN_VAL = 100
strictly dominates every static evaluation of an 8x8 board (which lies in
[-64, 64]). -/
theorem c5_terminal_scoring :
    (∀ (board : Board) (white_turn : Bool) (d : Nat) (alpha beta : Int),
      1 ≤ d → generate_legal_moves board true = [] →
      generate_legal_moves board false = [] →
      minimax_value board white_turn d alpha beta =
        (if count_cells board BLACK < count_cells board WHITE then WIN_VAL
         else if count_cells board WHITE < count_cells board BLACK then -WIN_VAL
         else 0)) ∧
    (∀ board : Board, wf8 board →
      -WIN_VAL < evaluation_function board ∧ evaluation_function board < WIN_VAL) := by
  constructor
  · intro board white_turn d alpha beta hd h1 h2
    unfold minimax_value
    have hf : 2 * d + 2 = (2 * d + 1) + 1 := by omega
    rw [hf]
    show (minimax_fuel ((2 * d + 1) + 1) board white_turn d alpha beta).getD 0 = _
    unfold minimax_fuel
    rw [if_neg (by omega : ¬ d = 0)]
    rw [check_game_over_terminal h1 h2]
    by_cases ha : count_cells board BLACK < count_cells board WHITE
    · rw [if_pos ha, if_pos ha]
      norm_num
    · rw [if_neg ha, if_neg ha]
      by_cases hb : count_cells board WHITE < count_cells board BLACK
      · rw [if_pos hb, if_pos hb]
        norm_num
      · rw [if_neg hb, if_neg hb]
        norm_num
  · intro board hwf
    have h := evaluation_bound hwf
    refine ⟨?_, ?_⟩
    · show (-(100 : Int)) < evaluation_function board
      omega
    · show evaluation_function board < (100 : Int)
      omega

/-- Witness for C5: the empty board is terminal with equal counts, value 0
from either side at depth 1, and the starting board's evaluation is
dominated by WIN_VAL. -/
theorem c5_witness :
    minimax_value (List.replicate 8 (List.replicate 8 0)) true 1 NEG_INF POS_INF = 0 ∧
    -WIN_VAL < evaluation_function starting_board ∧
    evaluation_function starting_board < WIN_VAL := by
  constructor
  · have h := c5_terminal_scoring.1 (List.replicate 8 (List.replicate 8 0)) true 1
      NEG_INF POS_INF (by decide) (by decide) (by decide)
    rw [h]; decide
  · exact c5_terminal_scoring.2 starting_board (by decide)

/-! ### C8: starting position and its legal moves (corrected) -/

/-- C8 counterexample: (2,3) is claimed to be one of Light's 4 legal
moves from the start, but it is not legal for Light (it is one of Dark's
moves). -/
theorem c8_counterexample :
    ((2 : Int), (3 : Int)) ∉ generate_legal_moves starting_board true := by
  decide

/-- C8 amended: the starting position is empty except Light at (3,3) and
(4,4) and Dark at (3,4) and (4,3), and on this board the legal-move
enumeration yields exactly (2,4),(3,2+3),(4,2),(5,3) -- precisely
[(2,4),(3,5),(4,2),(5,3)] -- for Light, while (2,3),(3,2),(4,5),(5,4) is
exactly Dark's move list. -/
theorem c8_amended :
    starting_board =
      [[0, 0, 0, 0, 0, 0, 0, 0],
       [0, 0, 0, 0, 0, 0, 0, 0],
       [0, 0, 0, 0, 0, 0, 0, 0],
       [0, 0, 0, WHITE, BLACK, 0, 0, 0],
       [0, 0, 0, BLACK, WHITE, 0, 0, 0],
       [0, 0, 0, 0, 0, 0, 0, 0],
       [0, 0, 0, 0, 0, 0, 0, 0],
       [0, 0, 0, 0, 0, 0, 0, 0]] ∧
    generate_legal_moves starting_board true = [(2, 4), (3, 5), (4, 2), (5, 3)] ∧
    generate_legal_moves starting_board false = [(2, 3), (3, 2), (4, 5), (5, 4)] := by
  refine ⟨by decide, by decide, by decide⟩

/-! ### C9: play_move performs no validation (corrected) -/

/-- C9 counterexample: applying a move onto the occupied cell (3,3)
(White's piece, Black to move) is not rejected: `play_move` silently
returns a modified board with the target overwritten. -/
theorem c9_counterexample :
    bget starting_board 3 3 = WHITE ∧
    bget (play_move starting_board (3, 3) false) 3 3 = BLACK := by
  decide

/-! ### Fuel bookkeeping: unfolding equations, monotonicity, termination -/

lemma minimax_fuel_succ (fuel : Nat) (board : Board) (w : Bool) (d : Nat)
    (alpha beta : Int) :
    minimax_fuel (fuel + 1) board w d alpha beta =
      if d = 0 then
        some ((count_cells board WHITE : Int) - (count_cells board BLACK : Int))
      else if check_game_over board = TIE then some 0
      else if check_game_over board = WHITE then some WIN_VAL
      else if check_game_over board = BLACK then some (WIN_VAL * -1)
      else if w then
        find_max_score (minimax_fuel fuel) (SYS_MAXSIZE * -1) board w d alpha beta
      else
        find_min_score (minimax_fuel fuel) SYS_MAXSIZE board w d alpha beta := rfl

lemma find_max_score_eq (recur : Board → Bool → Nat → Int → Int → Option Int)
    (M : Int) (board : Board) (w : Bool) (d : Nat) (a b : Int) :
    find_max_score recur M board w d a b =
      if (generate_legal_moves board true).length = 0 then recur board false d a b
      else find_max_loop (fun bd x => recur bd false (d - 1) x b) board
        (generate_legal_moves board true) M a b := rfl

lemma find_min_score_eq (recur : Board → Bool → Nat → Int → Int → Option Int)
    (M : Int) (board : Board) (w : Bool) (d : Nat) (a b : Int) :
    find_min_score recur M board w d a b =
      if (generate_legal_moves board false).length = 0 then recur board true d a b
      else find_min_loop (fun bd x => recur bd true (d - 1) a x) board
        (generate_legal_moves board false) M a b := rfl

lemma find_max_loop_cons (recur : Board → Int → Option Int) (board : Board)
    (m : Int × Int) (ms : List (Int × Int)) (M a b : Int) :
    find_max_loop recur board (m :: ms) M a b =
      (recur (play_move board m true) a).bind fun score =>
        if b ≤ (if score > a then score else a) then
          some (if score > M then score else M)
        else find_max_loop recur board ms (if score > M then score else M)
          (if score > a then score else a) b := rfl

lemma find_min_loop_cons (recur : Board → Int → Option Int) (board : Board)
    (m : Int × Int) (ms : List (Int × Int)) (M a b : Int) :
    find_min_loop recur board (m :: ms) M a b =
      (recur (play_move board m false) b).bind fun score =>
        if min b score ≤ a then some (min M score)
        else find_min_loop recur board ms (min M score) a (min b score) := rfl

lemma check_game_over_nobody_iff (board : Board) :
    check_game_over board = NOBODY ↔
      generate_legal_moves board true ≠ [] ∨ generate_legal_moves board false ≠ [] := by
  unfold check_game_over
  by_cases h1 : generate_legal_moves board true = []
  · by_cases h2 : generate_legal_moves board false = []
    · rw [if_neg (not_not_intro h1), if_neg (not_not_intro h2)]
      simp [find_winner_ne_nobody board, h1, h2]
    · rw [if_neg (not_not_intro h1), if_pos h2]
      simp [h2]
  · rw [if_pos h1]
    simp [h1]

lemma find_winner_cases (board : Board) :
    find_winner board = WHITE ∨ find_winner board = BLACK ∨
      find_winner board = TIE := by
  show (if count_cells board WHITE > count_cells board BLACK then WHITE
      else if count_cells board WHITE < count_cells board BLACK then BLACK
      else TIE) = WHITE ∨
    (if count_cells board WHITE > count_cells board BLACK then WHITE
      else if count_cells board WHITE < count_cells board BLACK then BLACK
      else TIE) = BLACK ∨
    (if count_cells board WHITE > count_cells board BLACK then WHITE
      else if count_cells board WHITE < count_cells board BLACK then BLACK
      else TIE) = TIE
  split_ifs <;> simp

lemma check_game_over_cases (board : Board) :
    check_game_over board = NOBODY ∨ check_game_over board = TIE ∨
      check_game_over board = WHITE ∨ check_game_over board = BLACK := by
  unfold check_game_over
  split_ifs
  · left; rfl
  · left; rfl
  · have := find_winner_cases board
    tauto

lemma find_max_loop_mono {recur recur' : Board → Int → Option Int}
    (hmono : ∀ bd x s, recur bd x = some s → recur' bd x = some s) (board : Board) :
    ∀ (moves : List (Int × Int)) (M a b r : Int),
      find_max_loop recur board moves M a b = some r →
      find_max_loop recur' board moves M a b = some r := by
  intro moves
  induction moves with
  | nil => intro M a b r h; exact h
  | cons m ms ih =>
    intro M a b r h
    rw [find_max_loop_cons] at h ⊢
    cases hsc : recur (play_move board m true) a with
    | none => rw [hsc] at h; simp at h
    | some score =>
      rw [hsc] at h
      rw [hmono _ _ _ hsc]
      simp only [Option.some_bind] at h ⊢
      by_cases hb : b ≤ (if score > a then score else a)
      · rw [if_pos hb] at h ⊢; exact h
      · rw [if_neg hb] at h ⊢; exact ih _ _ _ _ h

lemma find_min_loop_mono {recur recur' : Board → Int → Option Int}
    (hmono : ∀ bd x s, recur bd x = some s → recur' bd x = some s) (board : Board) :
    ∀ (moves : List (Int × Int)) (M a b r : Int),
      find_min_loop recur board moves M a b = some r →
      find_min_loop recur' board moves M a b = some r := by
  intro moves
  induction moves with
  | nil => intro M a b r h; exact h
  | cons m ms ih =>
    intro M a b r h
    rw [find_min_loop_cons] at h ⊢
    cases hsc : recur (play_move board m false) b with
    | none => rw [hsc] at h; simp at h
    | some score =>
      rw [hsc] at h
      rw [hmono _ _ _ hsc]
      simp only [Option.some_bind] at h ⊢
      by_cases hb : min b score ≤ a
      · rw [if_pos hb] at h ⊢; exact h
      · rw [if_neg hb] at h ⊢; exact ih _ _ _ _ h

lemma minimax_fuel_mono :
    ∀ (fuel : Nat) (board : Board) (w : Bool) (d : Nat) (alpha beta r : Int),
      minimax_fuel fuel board w d alpha beta = some r →
      minimax_fuel (fuel + 1) board w d alpha beta = some r := by
  intro fuel
  induction fuel with
  | zero => intro b w d a bt r h; simp [minimax_fuel] at h
  | succ fuel ih =>
    intro b w d a bt r h
    rw [minimax_fuel_succ] at h
    rw [minimax_fuel_succ]
    by_cases hd : d = 0
    · rw [if_pos hd] at h ⊢; exact h
    · rw [if_neg hd] at h ⊢
      rcases check_game_over_cases b with hgc | hgc | hgc | hgc
      all_goals rw [hgc] at h ⊢
      · rw [if_neg (by decide : ¬ (NOBODY = TIE)), if_neg (by decide : ¬ (NOBODY = WHITE)),
          if_neg (by decide : ¬ (NOBODY = BLACK))] at h ⊢
        cases w with
        | true =>
          rw [if_pos rfl] at h ⊢
          rw [find_max_score_eq] at h
          rw [find_max_score_eq]
          by_cases hleg : (generate_legal_moves b true).length = 0
          · rw [if_pos hleg] at h ⊢; exact ih _ _ _ _ _ _ h
          · rw [if_neg hleg] at h ⊢
            exact find_max_loop_mono (fun bd x s hs => ih _ _ _ _ _ _ hs) b _ _ _ _ _ h
        | false =>
          rw [if_neg (by decide : ¬ (false = true))] at h ⊢
          rw [find_min_score_eq] at h
          rw [find_min_score_eq]
          by_cases hleg : (generate_legal_moves b false).length = 0
          · rw [if_pos hleg] at h ⊢; exact ih _ _ _ _ _ _ h
          · rw [if_neg hleg] at h ⊢
            exact find_min_loop_mono (fun bd x s hs => ih _ _ _ _ _ _ hs) b _ _ _ _ _ h
      · exact h
      · rw [if_neg (by decide : ¬ (WHITE = TIE)), if_pos rfl] at h ⊢; exact h
      · rw [if_neg (by decide : ¬ (BLACK = TIE)), if_neg (by decide : ¬ (BLACK = WHITE)),
          if_pos rfl] at h ⊢
        exact h

lemma minimax_fuel_mono_le {fuel fuel' : Nat} (hle : fuel ≤ fuel') :
    ∀ {board : Board} {w : Bool} {d : Nat} {alpha beta r : Int},
      minimax_fuel fuel board w d alpha beta = some r →
      minimax_fuel fuel' board w d alpha beta = some r := by
  induction hle with
  | refl => intro _ _ _ _ _ _ h; exact h
  | step _ ih2 =>
    intro b w d a bt r h
    exact minimax_fuel_mono _ _ _ _ _ _ _ (ih2 h)

lemma find_max_loop_terminates {recur : Board → Int → Option Int}
    (hterm : ∀ bd x, ∃ s, recur bd x = some s) (board : Board) :
    ∀ (moves : List (Int × Int)) (M a b : Int),
      ∃ r, find_max_loop recur board moves M a b = some r := by
  intro moves
  induction moves with
  | nil => intro M a b; exact ⟨M, rfl⟩
  | cons m ms ih =>
    intro M a b
    obtain ⟨s, hs⟩ := hterm (play_move board m true) a
    rw [find_max_loop_cons, hs]
    simp only [Option.some_bind]
    by_cases hb : b ≤ (if s > a then s else a)
    · rw [if_pos hb]; exact ⟨_, rfl⟩
    · rw [if_neg hb]; exact ih _ _ _

lemma find_min_loop_terminates {recur : Board → Int → Option Int}
    (hterm : ∀ bd x, ∃ s, recur bd x = some s) (board : Board) :
    ∀ (moves : List (Int × Int)) (M a b : Int),
      ∃ r, find_min_loop recur board moves M a b = some r := by
  intro moves
  induction moves with
  | nil => intro M a b; exact ⟨M, rfl⟩
  | cons m ms ih =>
    intro M a b
    obtain ⟨s, hs⟩ := hterm (play_move board m false) b
    rw [find_min_loop_cons, hs]
    simp only [Option.some_bind]
    by_cases hb : min b s ≤ a
    · rw [if_pos hb]; exact ⟨_, rfl⟩
    · rw [if_neg hb]; exact ih _ _ _

/-- Sufficient recursion fuel: 2*depth+2 always suffices, and 2*depth+1
suffices when the side to move has at least one legal move. -/
def FuelOK (fuel : Nat) (board : Board) (w : Bool) (d : Nat) : Prop :=
  2 * d + 2 ≤ fuel ∨ (2 * d + 1 ≤ fuel ∧ generate_legal_moves board w ≠ [])

lemma minimax_fuel_terminates :
    ∀ (fuel : Nat) (board : Board) (w : Bool) (d : Nat) (alpha beta : Int),
      FuelOK fuel board w d →
      ∃ r, minimax_fuel fuel board w d alpha beta = some r := by
  intro fuel
  induction fuel with
  | zero =>
    intro b w d a bt hok
    rcases hok with h | ⟨h, _⟩ <;> omega
  | succ fuel ih =>
    intro b w d a bt hok
    rw [minimax_fuel_succ]
    by_cases hd : d = 0
    · rw [if_pos hd]; exact ⟨_, rfl⟩
    · rw [if_neg hd]
      rcases check_game_over_cases b with hgc | hgc | hgc | hgc
      all_goals rw [hgc]
      · rw [if_neg (by decide : ¬ (NOBODY = TIE)), if_neg (by decide : ¬ (NOBODY = WHITE)),
          if_neg (by decide : ¬ (NOBODY = BLACK))]
        have hnb := (check_game_over_nobody_iff b).mp hgc
        cases w with
        | true =>
          rw [if_pos rfl, find_max_score_eq]
          by_cases hleg : (generate_legal_moves b true).length = 0
          · rw [if_pos hleg]
            have hbl : generate_legal_moves b false ≠ [] := by
              rcases hnb with h | h
              · exact absurd (List.length_eq_zero.mp hleg) h
              · exact h
            apply ih
            right
            refine ⟨?_, hbl⟩
            rcases hok with h | ⟨h, hne⟩
            · omega
            · exact absurd (List.length_eq_zero.mp hleg) hne
          · rw [if_neg hleg]
            apply find_max_loop_terminates (fun bd x => ?_) b _ _ _ _
            apply ih
            left
            rcases hok with h | ⟨h, _⟩ <;> omega
        | false =>
          rw [if_neg (by decide : ¬ (false = true)), find_min_score_eq]
          by_cases hleg : (generate_legal_moves b false).length = 0
          · rw [if_pos hleg]
            have hbl : generate_legal_moves b true ≠ [] := by
              rcases hnb with h | h
              · exact h
              · exact absurd (List.length_eq_zero.mp hleg) h
            apply ih
            right
            refine ⟨?_, hbl⟩
            rcases hok with h | ⟨h, hne⟩
            · omega
            · exact absurd (List.length_eq_zero.mp hleg) hne
          · rw [if_neg hleg]
            apply find_min_loop_terminates (fun bd x => ?_) b _ _ _ _
            apply ih
            left
            rcases hok with h | ⟨h, _⟩ <;> omega
      · rw [if_pos rfl]; exact ⟨_, rfl⟩
      · rw [if_neg (by decide : ¬ (WHITE = TIE)), if_pos rfl]; exact ⟨_, rfl⟩
      · rw [if_neg (by decide : ¬ (BLACK = TIE)), if_neg (by decide : ¬ (BLACK = WHITE)),
          if_pos rfl]
        exact ⟨_, rfl⟩

lemma minimax_fuel_stable {fuel fuel' : Nat} {board : Board} {w : Bool} {d : Nat}
    {alpha beta : Int} (h1 : FuelOK fuel board w d) (h2 : FuelOK fuel' board w d) :
    minimax_fuel fuel board w d alpha beta = minimax_fuel fuel' board w d alpha beta := by
  obtain ⟨r, hr⟩ := minimax_fuel_terminates fuel board w d alpha beta h1
  obtain ⟨r', hr'⟩ := minimax_fuel_terminates fuel' board w d alpha beta h2
  rcases Nat.le_total fuel fuel' with hle | hle
  · have h3 := minimax_fuel_mono_le hle hr
    rw [hr, hr']
    rw [hr'] at h3
    exact h3.symm
  · have h3 := minimax_fuel_mono_le hle hr'
    rw [hr, hr']
    rw [hr] at h3
    exact h3

/-! ### C10: termination of the search -/

/-- C10: the search always terminates: fuel 2*d+2 is enough for every
board, side, depth and window - a forced pass keeps the depth but two
consecutive passes are impossible (the second passer's board is detected
as game over before recursing), so `minimax_value` is a total function of
its arguments. -/
theorem c10_termination (board : Board) (w : Bool) (d : Nat) (alpha beta : Int) :
    ∃ v, minimax_fuel (2 * d + 2) board w d alpha beta = some v ∧
      minimax_value board w d alpha beta = v := by
  obtain ⟨v, hv⟩ := minimax_fuel_terminates (2 * d + 2) board w d alpha beta (by
    left; omega)
  exact ⟨v, hv, by unfold minimax_value; rw [hv]; rfl⟩

/-! ### C4: forced pass keeps the remaining depth -/

/-- C4: if the side to move has no legal move but the opponent does, the
search value from the stuck side's turn at depth d equals the value from
the opponent's turn on the same board at the SAME depth d, for every
alpha/beta (both directions). -/
theorem c4_forced_pass (board : Board) (d : Nat) (alpha beta : Int) (hd : 1 ≤ d) :
    (generate_legal_moves board true = [] → generate_legal_moves board false ≠ [] →
      minimax_value board true d alpha beta = minimax_value board false d alpha beta) ∧
    (generate_legal_moves board false = [] → generate_legal_moves board true ≠ [] →
      minimax_value board false d alpha beta = minimax_value board true d alpha beta) := by
  constructor
  · intro h1 h2
    unfold minimax_value
    have hstep : (2 * d + 2) = (2 * d + 1) + 1 := by omega
    rw [hstep, minimax_fuel_succ]
    have hgc : check_game_over board = NOBODY :=
      (check_game_over_nobody_iff board).mpr (Or.inr h2)
    rw [if_neg (by omega : ¬ d = 0), hgc]
    norm_num
    rw [find_max_score_eq, if_pos (by rw [h1]; rfl)]
    rw [@minimax_fuel_stable (2 * d + 1) (2 * d + 2) board false d alpha beta
      (Or.inr ⟨by omega, h2⟩) (Or.inl (by omega))]
  · intro h1 h2
    unfold minimax_value
    have hstep : (2 * d + 2) = (2 * d + 1) + 1 := by omega
    rw [hstep, minimax_fuel_succ]
    have hgc : check_game_over board = NOBODY :=
      (check_game_over_nobody_iff board).mpr (Or.inl h2)
    rw [if_neg (by omega : ¬ d = 0), hgc]
    norm_num
    rw [find_min_score_eq, if_pos (by rw [h1]; rfl)]
    rw [@minimax_fuel_stable (2 * d + 1) (2 * d + 2) board true d alpha beta
      (Or.inr ⟨by omega, h2⟩) (Or.inl (by omega))]

/-- Witness for C4: on the board with Black at (0,0) and White at (0,1),
White has no legal move while Black has one, so searching from White's
turn at depth 1 equals searching from Black's turn at depth 1. -/
theorem c4_witness :
    minimax_value (bset (bset (List.replicate 8 (List.replicate 8 0)) 0 0 BLACK)
        0 1 WHITE) true 1 NEG_INF POS_INF =
      minimax_value (bset (bset (List.replicate 8 (List.replicate 8 0)) 0 0 BLACK)
        0 1 WHITE) false 1 NEG_INF POS_INF :=
  (c4_forced_pass _ 1 NEG_INF POS_INF (by omega)).1 (by decide) (by decide)

/-! ### C3: the per-direction capture test -/

lemma scan_run_succ (b : Board) (fr sr sc dr dc : Int) (fuel : Nat) :
    scan_run b fr sr sc dr dc (fuel + 1) =
      if inB sr sc then
        if bget b sr sc = NOBODY then false
        else if bget b sr sc = fr then true
        else scan_run b fr (sr + dr) (sc + dc) dr dc fuel
      else false := rfl

lemma captures_in_dir_eq (b : Board) (row dr col dc : Int) (w : Bool) :
    captures_in_dir b row dr col dc w =
      if row + dr < 0 ∨ 8 ≤ row + dr then false
      else if col + dc < 0 ∨ 8 ≤ col + dc then false
      else if bget b (row + dr) (col + dc) ≠ (if w then BLACK else WHITE) then false
      else scan_run b (if w then WHITE else BLACK) (row + 2 * dr) (col + 2 * dc)
        dr dc 16 := rfl

/-- Once a scan ray (started two steps out from an on-board cell) leaves
the board it stays off the board. -/
lemma ray_exit {r c dr dc : Int} (hr0 : 0 ≤ r) (hr8 : r < 8) (hc0 : 0 ≤ c)
    (hc8 : c < 8) (hdir : (dr, dc) ∈ DIRECTIONS) (i j : Nat) (hij : i ≤ j)
    (h : ¬ inB (r + 2 * dr + (i : Int) * dr) (c + 2 * dc + (i : Int) * dc)) :
    ¬ inB (r + 2 * dr + (j : Int) * dr) (c + 2 * dc + (j : Int) * dc) := by
  simp only [DIRECTIONS, List.mem_cons, List.not_mem_nil, or_false] at hdir
  unfold inB at *
  rcases hdir with hd | hd | hd | hd | hd | hd | hd | hd <;>
    (rw [Prod.mk.injEq] at hd; obtain ⟨rfl, rfl⟩ := hd) <;> omega

/-- The scan ray is off the board by step 15. -/
lemma ray_escape {r c dr dc : Int} (hr0 : 0 ≤ r) (hr8 : r < 8) (hc0 : 0 ≤ c)
    (hc8 : c < 8) (hdir : (dr, dc) ∈ DIRECTIONS) :
    ¬ inB (r + 2 * dr + ((15 : Nat) : Int) * dr) (c + 2 * dc + ((15 : Nat) : Int) * dc) := by
  simp only [DIRECTIONS, List.mem_cons, List.not_mem_nil, or_false] at hdir
  unfold inB
  rcases hdir with hd | hd | hd | hd | hd | hd | hd | hd <;>
    (rw [Prod.mk.injEq] at hd; obtain ⟨rfl, rfl⟩ := hd) <;> omega

/-- The scan loop returns true iff some cell along the ray holds the
friendly color with only enemy cells (no gaps, no edge) before it. -/
lemma scan_run_iff {b : Board} (hwf : wf8 b) {fr : Int}
    (hfr : fr = WHITE ∨ fr = BLACK) (dr dc : Int) :
    ∀ (fuel : Nat) (sr sc : Int),
      (∀ i j : Nat, i ≤ j → ¬ inB (sr + (i : Int) * dr) (sc + (i : Int) * dc) →
        ¬ inB (sr + (j : Int) * dr) (sc + (j : Int) * dc)) →
      (∃ e : Nat, e < fuel ∧ ¬ inB (sr + (e : Int) * dr) (sc + (e : Int) * dc)) →
      (scan_run b fr sr sc dr dc fuel = true ↔
        ∃ k : Nat, bget b (sr + (k : Int) * dr) (sc + (k : Int) * dc) = fr ∧
          ∀ i : Nat, i < k → bget b (sr + (i : Int) * dr) (sc + (i : Int) * dc) = -fr) := by
  intro fuel
  induction fuel with
  | zero =>
    intro sr sc _ hb
    obtain ⟨e, he, _⟩ := hb
    omega
  | succ fuel ih =>
    intro sr sc hexit hb
    rw [scan_run_succ]
    by_cases hin : inB sr sc
    · rw [if_pos hin]
      by_cases hz : bget b sr sc = NOBODY
      · rw [if_pos hz]
        constructor
        · intro h; simp at h
        · rintro ⟨k, hk, hall⟩
          exfalso
          cases k with
          | zero =>
            norm_num at hk
            rw [hz] at hk
            rcases hfr with rfl | rfl <;> exact absurd hk (by decide)
          | succ k =>
            have h0 := hall 0 (Nat.succ_pos k)
            norm_num at h0
            rw [hz] at h0
            rcases hfr with rfl | rfl <;> exact absurd h0 (by decide)
      · rw [if_neg hz]
        by_cases hf : bget b sr sc = fr
        · rw [if_pos hf]
          constructor
          · intro _
            refine ⟨0, by simpa using hf, ?_⟩
            intro i hi; omega
          · intro _; rfl
        · rw [if_neg hf]
          have hcell : bget b sr sc = -fr := by
            rcases bget_cases hwf sr sc with h | h | h
            · rcases hfr with rfl | rfl
              · exact h.trans (by decide)
              · exact absurd h hf
            · exact absurd h hz
            · rcases hfr with rfl | rfl
              · exact absurd h hf
              · exact h.trans (by decide)
          have harr : ∀ t : Nat, sr + dr + (t : Int) * dr = sr + ((t + 1 : Nat) : Int) * dr := by
            intro t; push_cast; ring
          have harc : ∀ t : Nat, sc + dc + (t : Int) * dc = sc + ((t + 1 : Nat) : Int) * dc := by
            intro t; push_cast; ring
          have hexit' : ∀ i j : Nat, i ≤ j →
              ¬ inB (sr + dr + (i : Int) * dr) (sc + dc + (i : Int) * dc) →
              ¬ inB (sr + dr + (j : Int) * dr) (sc + dc + (j : Int) * dc) := by
            intro i j hij h
            rw [harr, harc] at h ⊢
            exact hexit (i + 1) (j + 1) (by omega) h
          have hb' : ∃ e : Nat, e < fuel ∧
              ¬ inB (sr + dr + (e : Int) * dr) (sc + dc + (e : Int) * dc) := by
            obtain ⟨e, he, hout⟩ := hb
            cases e with
            | zero =>
              exfalso; apply hout; simpa using hin
            | succ e =>
              refine ⟨e, by omega, ?_⟩
              rw [harr, harc]
              exact hout
          rw [ih (sr + dr) (sc + dc) hexit' hb']
          constructor
          · rintro ⟨k, hk, hall⟩
            refine ⟨k + 1, ?_, ?_⟩
            · rw [← harr k, ← harc k]; exact hk
            · intro i hi
              cases i with
              | zero => simpa using hcell
              | succ i => rw [← harr i, ← harc i]; exact hall i (by omega)
          · rintro ⟨k, hk, hall⟩
            cases k with
            | zero =>
              norm_num at hk
              exact absurd hk hf
            | succ k =>
              refine ⟨k, ?_, ?_⟩
              · rw [harr, harc]; exact hk
              · intro i hi
                rw [harr, harc]
                exact hall (i + 1) (by omega)
    · rw [if_neg hin]
      constructor
      · intro h; simp at h
      · rintro ⟨k, hk, -⟩
        exfalso
        have h0 : ¬ inB (sr + ((0 : Nat) : Int) * dr) (sc + ((0 : Nat) : Int) * dc) := by
          simpa using hin
        have hk' := hexit 0 k (Nat.zero_le k) h0
        rw [bget_offboard hk'] at hk
        rcases hfr with rfl | rfl <;> exact absurd hk (by decide)

/-- C3: the per-direction capture test is false whenever the adjacent cell
is off-board, empty or the mover's own color; and when the adjacent cell
holds the opponent's color it is true iff an own-color cell is reached
along the direction before any empty cell and before leaving the board
(all intermediate cells hold the opponent's color; an off-board cell reads
as empty, so a gap or the edge never yields a capture). -/
theorem c3_captures_in_dir (board : Board) (r c dr dc : Int) (white_turn : Bool)
    (hwf : wf8 board) (hr0 : 0 ≤ r) (hr8 : r < 8) (hc0 : 0 ≤ c) (hc8 : c < 8)
    (hdir : (dr, dc) ∈ DIRECTIONS) :
    (¬ inB (r + dr) (c + dc) ∨ bget board (r + dr) (c + dc) = NOBODY ∨
        bget board (r + dr) (c + dc) = (if white_turn then WHITE else BLACK) →
      captures_in_dir board r dr c dc white_turn = false) ∧
    (bget board (r + dr) (c + dc) = (if white_turn then BLACK else WHITE) →
      (captures_in_dir board r dr c dc white_turn = true ↔
        ∃ k : Nat, 2 ≤ k ∧
          bget board (r + (k : Int) * dr) (c + (k : Int) * dc) =
            (if white_turn then WHITE else BLACK) ∧
          ∀ j : Nat, 2 ≤ j → j < k →
            bget board (r + (j : Int) * dr) (c + (j : Int) * dc) =
              (if white_turn then BLACK else WHITE))) := by
  have hfr : (if white_turn then WHITE else BLACK) = WHITE ∨
      (if white_turn then WHITE else BLACK) = BLACK := by
    cases white_turn <;> simp
  have hen : (if white_turn then BLACK else WHITE) =
      -(if white_turn then WHITE else BLACK) := by
    cases white_turn <;> decide
  constructor
  · intro hcase
    rw [captures_in_dir_eq]
    rcases hcase with hout | hz | hown
    · unfold inB at hout
      by_cases h1 : r + dr < 0 ∨ 8 ≤ r + dr
      · rw [if_pos h1]
      · rw [if_neg h1, if_pos (by omega)]
    · by_cases h1 : r + dr < 0 ∨ 8 ≤ r + dr
      · rw [if_pos h1]
      · rw [if_neg h1]
        by_cases h2 : c + dc < 0 ∨ 8 ≤ c + dc
        · rw [if_pos h2]
        · rw [if_neg h2, if_pos ?_]
          rw [hz]
          cases white_turn <;> decide
    · by_cases h1 : r + dr < 0 ∨ 8 ≤ r + dr
      · rw [if_pos h1]
      · rw [if_neg h1]
        by_cases h2 : c + dc < 0 ∨ 8 ≤ c + dc
        · rw [if_pos h2]
        · rw [if_neg h2, if_pos ?_]
          rw [hown]
          cases white_turn <;> decide
  · intro hadj
    have hinadj : inB (r + dr) (c + dc) := by
      by_contra hout
      rw [bget_offboard hout] at hadj
      cases white_turn <;> exact absurd hadj (by decide)
    rw [captures_in_dir_eq]
    unfold inB at hinadj
    rw [if_neg (by omega), if_neg (by omega), if_neg (not_not_intro hadj)]
    have hexit := fun i j hij h =>
      ray_exit hr0 hr8 hc0 hc8 hdir i j hij h
    have hb : ∃ e : Nat, e < 16 ∧
        ¬ inB (r + 2 * dr + (e : Int) * dr) (c + 2 * dc + (e : Int) * dc) :=
      ⟨15, by omega, ray_escape hr0 hr8 hc0 hc8 hdir⟩
    rw [scan_run_iff hwf hfr dr dc 16 (r + 2 * dr) (c + 2 * dc) hexit hb]
    have harr : ∀ t : Nat, r + 2 * dr + (t : Int) * dr = r + ((t + 2 : Nat) : Int) * dr := by
      intro t; push_cast; ring
    have harc : ∀ t : Nat, c + 2 * dc + (t : Int) * dc = c + ((t + 2 : Nat) : Int) * dc := by
      intro t; push_cast; ring
    constructor
    · rintro ⟨k, hk, hall⟩
      refine ⟨k + 2, by omega, ?_, ?_⟩
      · rw [← harr k, ← harc k]; exact hk
      · intro j hj2 hjk
        obtain ⟨i, rfl⟩ : ∃ i : Nat, j = i + 2 := ⟨j - 2, by omega⟩
        rw [← harr i, ← harc i, hen]
        exact hall i (by omega)
    · rintro ⟨k, hk2, hk, hall⟩
      obtain ⟨k', rfl⟩ : ∃ k' : Nat, k = k' + 2 := ⟨k - 2, by omega⟩
      refine ⟨k', ?_, ?_⟩
      · rw [harr k', harc k']; exact hk
      · intro i hi
        rw [harr i, harc i, ← hen]
        exact hall (i + 2) (by omega) (by omega)

/-- Witness for C3 on the starting board: from cell (3,5) in direction
(0,-1) for White the adjacent cell holds Black and the capture test
succeeds, with the enclosing White piece two steps away (k = 2). -/
theorem c3_witness :
    captures_in_dir starting_board 3 0 5 (-1) true = true := by
  have h := (c3_captures_in_dir starting_board 3 5 0 (-1) true (by decide) (by decide)
    (by decide) (by decide) (by decide) (by decide)).2 (by decide)
  rw [h]
  exact ⟨2, by omega, by decide, fun j hj2 hjk => absurd (Nat.lt_of_le_of_lt hj2 hjk)
    (lt_irrefl 2)⟩

/-! ### C2: frame/effect of play_move -/

lemma shift_ray (x delta : Int) (t : Nat) :
    x + delta + (t : Int) * delta = x + ((t + 1 : Nat) : Int) * delta := by
  push_cast; ring

lemma flip_run_succ (B : Board) (e fr fc dr dc : Int) (fuel : Nat) :
    flip_run B e fr fc dr dc (fuel + 1) =
      if bget B fr fc = e then
        flip_run (bset B fr fc (-e)) e (fr + dr) (fc + dc) dr dc fuel
      else B := rfl

lemma dir_nonzero {dr dc : Int} (hdir : (dr, dc) ∈ DIRECTIONS) : ¬ (dr = 0 ∧ dc = 0) := by
  simp only [DIRECTIONS, List.mem_cons, List.not_mem_nil, or_false] at hdir
  rcases hdir with hd | hd | hd | hd | hd | hd | hd | hd <;>
    (rw [Prod.mk.injEq] at hd; obtain ⟨rfl, rfl⟩ := hd) <;> simp

/-- Cells strictly along a direction ray never hit the ray's origin. -/
lemma ray_ne_center {dr dc : Int} (hdnz : ¬ (dr = 0 ∧ dc = 0)) (mr mc : Int)
    (t : Nat) (ht : 1 ≤ t) :
    ¬ (mr + (t : Int) * dr = mr ∧ mc + (t : Int) * dc = mc) := by
  rintro ⟨h1, h2⟩
  apply hdnz
  have ht' : (1 : Int) ≤ (t : Int) := by exact_mod_cast ht
  constructor
  · have : (t : Int) * dr = 0 := by omega
    rcases mul_eq_zero.mp this with h | h
    · omega
    · exact h
  · have : (t : Int) * dc = 0 := by omega
    rcases mul_eq_zero.mp this with h | h
    · omega
    · exact h

/-- Strict ray cells of two distinct directions from the same center never
coincide. -/
lemma ray_disjoint {dr dc dr' dc' : Int} (hd : (dr, dc) ∈ DIRECTIONS)
    (hd' : (dr', dc') ∈ DIRECTIONS) (hne : ¬ (dr = dr' ∧ dc = dc'))
    (mr mc : Int) (j j' : Nat) (hj : 1 ≤ j) (hj' : 1 ≤ j') :
    ¬ (mr + (j : Int) * dr = mr + (j' : Int) * dr' ∧
       mc + (j : Int) * dc = mc + (j' : Int) * dc') := by
  simp only [DIRECTIONS, List.mem_cons, List.not_mem_nil, or_false] at hd hd'
  rcases hd with h | h | h | h | h | h | h | h <;>
    (rw [Prod.mk.injEq] at h; obtain ⟨rfl, rfl⟩ := h) <;>
    (rcases hd' with h' | h' | h' | h' | h' | h' | h' | h' <;>
      (rw [Prod.mk.injEq] at h'; obtain ⟨rfl, rfl⟩ := h') <;>
      (rintro ⟨h1, h2⟩ <;> first | exact hne ⟨rfl, rfl⟩ | omega))

/-- A nonempty cell along a ray from an on-board center is at distance at
most 8. -/
lemma ray_bound {B : Board} {mr mc dr dc : Int} (hmr0 : 0 ≤ mr) (hmr8 : mr < 8)
    (hmc0 : 0 ≤ mc) (hmc8 : mc < 8) (hdir : (dr, dc) ∈ DIRECTIONS) {j : Nat} {v : Int}
    (hv : v ≠ 0) (h : bget B (mr + (j : Int) * dr) (mc + (j : Int) * dc) = v) :
    j ≤ 8 := by
  have hin : inB (mr + (j : Int) * dr) (mc + (j : Int) * dc) := by
    by_contra hout
    rw [bget_offboard hout] at h
    exact hv h.symm
  simp only [DIRECTIONS, List.mem_cons, List.not_mem_nil, or_false] at hdir
  unfold inB at hin
  rcases hdir with hd | hd | hd | hd | hd | hd | hd | hd <;>
    (rw [Prod.mk.injEq] at hd; obtain ⟨rfl, rfl⟩ := hd) <;> omega

/-- What the flip loop does, cell by cell: exactly the maximal prefix of
the ray (within fuel) that holds the enemy color is overwritten with the
mover's color. -/
lemma flip_run_spec {e : Int} (he : e = WHITE ∨ e = BLACK) {dr dc : Int}
    (hdnz : ¬ (dr = 0 ∧ dc = 0)) :
    ∀ (fuel : Nat) (B : Board) (sr sc : Int), wf8 B → ∀ r c : Int,
      bget (flip_run B e sr sc dr dc fuel) r c =
        if ∃ j : Nat, j < fuel ∧ r = sr + (j : Int) * dr ∧ c = sc + (j : Int) * dc ∧
            ∀ i : Nat, i ≤ j → bget B (sr + (i : Int) * dr) (sc + (i : Int) * dc) = e
        then -e else bget B r c := by
  intro fuel
  induction fuel with
  | zero =>
    intro B sr sc hwf r c
    rw [if_neg]
    · rfl
    · rintro ⟨j, hj, -⟩
      omega
  | succ fuel ih =>
    intro B sr sc hwf r c
    rw [flip_run_succ]
    by_cases hB0 : bget B sr sc = e
    · rw [if_pos hB0]
      have hin : inB sr sc := by
        by_contra hout
        rw [bget_offboard hout] at hB0
        rcases he with rfl | rfl <;> exact absurd hB0.symm (by decide)
      have hwf' : wf8 (bset B sr sc (-e)) :=
        wf8_bset hwf (by rcases he with rfl | rfl <;> simp)
      have hagree : ∀ t : Nat, 1 ≤ t →
          bget (bset B sr sc (-e)) (sr + (t : Int) * dr) (sc + (t : Int) * dc) =
            bget B (sr + (t : Int) * dr) (sc + (t : Int) * dc) := by
        intro t ht
        exact bget_bset_ne _ (ray_ne_center hdnz sr sc t ht)
      rw [ih (bset B sr sc (-e)) (sr + dr) (sc + dc) hwf' r c]
      by_cases hrc : r = sr ∧ c = sc
      · obtain ⟨rfl, rfl⟩ := hrc
        have hCfalse : ¬ (∃ j : Nat, j < fuel ∧ r = r + dr + (j : Int) * dr ∧
            c = c + dc + (j : Int) * dc ∧
            ∀ i : Nat, i ≤ j → bget (bset B r c (-e))
              (r + dr + (i : Int) * dr) (c + dc + (i : Int) * dc) = e) := by
          rintro ⟨j, hj, h1, h2, -⟩
          refine ray_ne_center hdnz r c (j + 1) (by omega) ⟨?_, ?_⟩
          · rw [← shift_ray r dr j]; omega
          · rw [← shift_ray c dc j]; omega
        have hCtrue : ∃ j : Nat, j < fuel + 1 ∧ r = r + (j : Int) * dr ∧
            c = c + (j : Int) * dc ∧
            ∀ i : Nat, i ≤ j → bget B (r + (i : Int) * dr) (c + (i : Int) * dc) = e := by
          refine ⟨0, by omega, by simp, by simp, ?_⟩
          intro i hi
          have : i = 0 := by omega
          subst this
          simpa using hB0
        rw [if_neg hCfalse, if_pos hCtrue, bget_bset_eq hwf hin]
      · rw [bget_bset_ne _ hrc]
        have hiff : (∃ j : Nat, j < fuel ∧ r = sr + dr + (j : Int) * dr ∧
            c = sc + dc + (j : Int) * dc ∧
            ∀ i : Nat, i ≤ j → bget (bset B sr sc (-e))
              (sr + dr + (i : Int) * dr) (sc + dc + (i : Int) * dc) = e) ↔
            (∃ j : Nat, j < fuel + 1 ∧ r = sr + (j : Int) * dr ∧
              c = sc + (j : Int) * dc ∧
              ∀ i : Nat, i ≤ j →
                bget B (sr + (i : Int) * dr) (sc + (i : Int) * dc) = e) := by
          constructor
          · rintro ⟨j, hj, h1, h2, hall⟩
            refine ⟨j + 1, by omega, by rw [← shift_ray sr dr j]; exact h1,
              by rw [← shift_ray sc dc j]; exact h2, ?_⟩
            intro i hi
            cases i with
            | zero => simpa using hB0
            | succ i =>
              have hx := hall i (by omega)
              rw [shift_ray sr dr i, shift_ray sc dc i, hagree (i + 1) (by omega)] at hx
              exact hx
          · rintro ⟨j, hj, h1, h2, hall⟩
            cases j with
            | zero =>
              exact absurd ⟨by simpa using h1, by simpa using h2⟩ hrc
            | succ j =>
              refine ⟨j, by omega, by rw [shift_ray sr dr j]; exact h1,
                by rw [shift_ray sc dc j]; exact h2, ?_⟩
              intro i hi
              have hx := hall (i + 1) (by omega)
              rw [← hagree (i + 1) (by omega)] at hx
              rw [shift_ray sr dr i, shift_ray sc dc i]
              exact hx
        by_cases hC : ∃ j : Nat, j < fuel + 1 ∧ r = sr + (j : Int) * dr ∧
            c = sc + (j : Int) * dc ∧
            ∀ i : Nat, i ≤ j → bget B (sr + (i : Int) * dr) (sc + (i : Int) * dc) = e
        · rw [if_pos (hiff.mpr hC), if_pos hC]
        · rw [if_neg (fun h => hC (hiff.mp h)), if_neg hC]
    · rw [if_neg hB0, if_neg]
      rintro ⟨j, hj, h1, h2, hall⟩
      have h0 := hall 0 (Nat.zero_le j)
      simp only [Nat.cast_zero, zero_mul, add_zero] at h0
      exact hB0 h0

/-- The directional scan reads only cells strictly along its ray. -/
lemma scan_run_congr {B B' : Board} {fr dr dc : Int} :
    ∀ (fuel : Nat) (sr sc : Int),
      (∀ t : Nat, bget B (sr + (t : Int) * dr) (sc + (t : Int) * dc) =
        bget B' (sr + (t : Int) * dr) (sc + (t : Int) * dc)) →
      scan_run B fr sr sc dr dc fuel = scan_run B' fr sr sc dr dc fuel := by
  intro fuel
  induction fuel with
  | zero => intro sr sc _; rfl
  | succ fuel ih =>
    intro sr sc hag
    have h0 : bget B sr sc = bget B' sr sc := by simpa using hag 0
    rw [scan_run_succ, scan_run_succ, h0]
    by_cases hin : inB sr sc
    · rw [if_pos hin, if_pos hin]
      by_cases hz : bget B' sr sc = NOBODY
      · rw [if_pos hz, if_pos hz]
      · rw [if_neg hz, if_neg hz]
        by_cases hf : bget B' sr sc = fr
        · rw [if_pos hf, if_pos hf]
        · rw [if_neg hf, if_neg hf]
          apply ih
          intro t
          have hx := hag (t + 1)
          rw [← shift_ray sr dr t, ← shift_ray sc dc t] at hx
          exact hx
    · rw [if_neg hin, if_neg hin]

/-- The per-direction capture test reads only cells strictly along its
ray. -/
lemma captures_in_dir_congr {B B' : Board} {row col dr dc : Int} {w : Bool}
    (hag : ∀ t : Nat, 1 ≤ t →
      bget B (row + (t : Int) * dr) (col + (t : Int) * dc) =
        bget B' (row + (t : Int) * dr) (col + (t : Int) * dc)) :
    captures_in_dir B row dr col dc w = captures_in_dir B' row dr col dc w := by
  rw [captures_in_dir_eq, captures_in_dir_eq]
  have h1 : bget B (row + dr) (col + dc) = bget B' (row + dr) (col + dc) := by
    have hx := hag 1 (le_refl 1)
    simpa using hx
  rw [h1]
  by_cases hg1 : row + dr < 0 ∨ 8 ≤ row + dr
  · rw [if_pos hg1, if_pos hg1]
  · rw [if_neg hg1, if_neg hg1]
    by_cases hg2 : col + dc < 0 ∨ 8 ≤ col + dc
    · rw [if_pos hg2, if_pos hg2]
    · rw [if_neg hg2, if_neg hg2]
      by_cases hg3 : bget B' (row + dr) (col + dc) ≠ (if w then BLACK else WHITE)
      · rw [if_pos hg3, if_pos hg3]
      · rw [if_neg hg3, if_neg hg3]
        apply scan_run_congr
        intro t
        have hx := hag (t + 2) (by omega)
        have har : row + 2 * dr + (t : Int) * dr = row + ((t + 2 : Nat) : Int) * dr := by
          push_cast; ring
        have hac : col + 2 * dc + (t : Int) * dc = col + ((t + 2 : Nat) : Int) * dc := by
          push_cast; ring
        rw [har, hac]
        exact hx

lemma capture_eq (board : Board) (row col : Int) (w : Bool) :
    capture board row col w =
      DIRECTIONS.foldl (fun bd d =>
        if captures_in_dir bd row d.1 col d.2 w then
          flip_run bd (if w then BLACK else WHITE) (row + d.1) (col + d.2) d.1 d.2 16
        else bd) board := rfl

lemma play_move_eq (board : Board) (move : Int × Int) (w : Bool) :
    play_move board move w =
      capture (bset board move.1 move.2 (if w then WHITE else BLACK))
        move.1 move.2 w := rfl

/-- The cells `applyMove` flips (besides the target): a cell is flipped
iff it lies on a ray whose capture test holds, strictly between the target
and the first non-enemy cell, i.e. it and every ray cell before it hold
the opponent's color. -/
abbrev flippedSpec (board : Board) (mr mc : Int) (white_turn : Bool) (r c : Int) : Prop :=
  ∃ d ∈ DIRECTIONS, captures_in_dir board mr d.1 mc d.2 white_turn = true ∧
    ∃ j : Nat, 1 ≤ j ∧ r = mr + (j : Int) * d.1 ∧ c = mc + (j : Int) * d.2 ∧
      ∀ i : Nat, 1 ≤ i → i ≤ j →
        bget board (mr + (i : Int) * d.1) (mc + (i : Int) * d.2) =
          (if white_turn then BLACK else WHITE)

open Classical in
/-- Effect of the direction fold inside `capture`, cell by cell, relative
to a reference board B0 that agrees with the running board on every
not-yet-processed ray. -/
lemma capture_fold_spec (mr mc : Int) (w : Bool) (e : Int)
    (he : e = if w then BLACK else WHITE)
    (hmr0 : 0 ≤ mr) (hmr8 : mr < 8) (hmc0 : 0 ≤ mc) (hmc8 : mc < 8) :
    ∀ (ds : List (Int × Int)) (B B0 : Board), wf8 B →
      (∀ d ∈ ds, d ∈ DIRECTIONS) → ds.Nodup →
      (∀ d ∈ ds, ∀ t : Nat, 1 ≤ t →
        bget B (mr + (t : Int) * d.1) (mc + (t : Int) * d.2) =
          bget B0 (mr + (t : Int) * d.1) (mc + (t : Int) * d.2)) →
      ∀ r c : Int,
        bget (ds.foldl (fun bd d =>
          if captures_in_dir bd mr d.1 mc d.2 w then
            flip_run bd e (mr + d.1) (mc + d.2) d.1 d.2 16
          else bd) B) r c =
        if ∃ d ∈ ds, captures_in_dir B0 mr d.1 mc d.2 w = true ∧
            ∃ j : Nat, 1 ≤ j ∧ r = mr + (j : Int) * d.1 ∧ c = mc + (j : Int) * d.2 ∧
              ∀ i : Nat, 1 ≤ i → i ≤ j →
                bget B0 (mr + (i : Int) * d.1) (mc + (i : Int) * d.2) = e
        then -e else bget B r c := by
  have he' : e = WHITE ∨ e = BLACK := by
    subst he; cases w <;> simp
  have hez : e ≠ 0 := by rcases he' with rfl | rfl <;> decide
  intro ds
  induction ds with
  | nil =>
    intro B B0 hwf _ _ _ r c
    rw [if_neg]
    · rfl
    · rintro ⟨d, hd, -⟩
      simp at hd
  | cons d ds ih =>
    intro B B0 hwf hds hnd hagree r c
    have hdD : d ∈ DIRECTIONS := hds d (List.mem_cons_self d ds)
    have hdnz : ¬ (d.1 = 0 ∧ d.2 = 0) := by
      rcases d with ⟨d1, d2⟩
      exact dir_nonzero hdD
    obtain ⟨hdnotin, hnd'⟩ := List.nodup_cons.mp hnd
    have hagd := hagree d (List.mem_cons_self d ds)
    have hcap_eq : captures_in_dir B mr d.1 mc d.2 w =
        captures_in_dir B0 mr d.1 mc d.2 w :=
      captures_in_dir_congr fun t ht => hagd t ht
    simp only [List.foldl_cons]
    by_cases hcap : captures_in_dir B0 mr d.1 mc d.2 w = true
    · rw [if_pos (by rw [hcap_eq]; exact hcap)]
      have hwf1 : wf8 (flip_run B e (mr + d.1) (mc + d.2) d.1 d.2 16) :=
        wf8_flip_run e (by rcases he' with h | h <;> [exact Or.inr h; exact Or.inl h])
          16 B _ _ _ _ hwf
      have hflip := flip_run_spec he' hdnz 16 B (mr + d.1) (mc + d.2) hwf
      -- the flip condition relative to B equals the claim's run condition
      -- relative to B0
      have hiff : ∀ r' c' : Int,
          (∃ u : Nat, u < 16 ∧ r' = mr + d.1 + (u : Int) * d.1 ∧
            c' = mc + d.2 + (u : Int) * d.2 ∧
            ∀ i : Nat, i ≤ u →
              bget B (mr + d.1 + (i : Int) * d.1) (mc + d.2 + (i : Int) * d.2) = e) ↔
          (∃ j : Nat, 1 ≤ j ∧ r' = mr + (j : Int) * d.1 ∧ c' = mc + (j : Int) * d.2 ∧
            ∀ i : Nat, 1 ≤ i → i ≤ j →
              bget B0 (mr + (i : Int) * d.1) (mc + (i : Int) * d.2) = e) := by
        intro r' c'
        constructor
        · rintro ⟨u, hu, h1, h2, hall⟩
          refine ⟨u + 1, by omega, by rw [← shift_ray mr d.1 u]; exact h1,
            by rw [← shift_ray mc d.2 u]; exact h2, ?_⟩
          intro i hi1 hi2
          obtain ⟨i', rfl⟩ : ∃ i' : Nat, i = i' + 1 := ⟨i - 1, by omega⟩
          have hx := hall i' (by omega)
          rw [shift_ray mr d.1 i', shift_ray mc d.2 i', hagd (i' + 1) (by omega)] at hx
          exact hx
        · rintro ⟨j, hj1, h1, h2, hall⟩
          obtain ⟨u, rfl⟩ : ∃ u : Nat, j = u + 1 := ⟨j - 1, by omega⟩
          have hbound : u + 1 ≤ 8 :=
            ray_bound hmr0 hmr8 hmc0 hmc8 (by rcases d with ⟨d1, d2⟩; exact hdD) hez
              (hall (u + 1) (by omega) (le_refl _))
          refine ⟨u, by omega, by rw [shift_ray mr d.1 u]; exact h1,
            by rw [shift_ray mc d.2 u]; exact h2, ?_⟩
          intro i hi
          have hx := hall (i + 1) (by omega) (by omega)
          rw [← hagd (i + 1) (by omega)] at hx
          rw [shift_ray mr d.1 i, shift_ray mc d.2 i]
          exact hx
      have hagree1 : ∀ d' ∈ ds, ∀ t : Nat, 1 ≤ t →
          bget (flip_run B e (mr + d.1) (mc + d.2) d.1 d.2 16)
              (mr + (t : Int) * d'.1) (mc + (t : Int) * d'.2) =
            bget B0 (mr + (t : Int) * d'.1) (mc + (t : Int) * d'.2) := by
        intro d' hd' t ht
        have hne : ¬ (d.1 = d'.1 ∧ d.2 = d'.2) := by
          rintro ⟨ha, hb⟩
          apply hdnotin
          have : d = d' := by
            rcases d with ⟨d1, d2⟩; rcases d' with ⟨d1', d2'⟩
            simp only at ha hb
            rw [ha, hb]
          rw [this]
          exact hd'
        rw [hflip]
        rw [if_neg, hagree d' (List.mem_cons_of_mem d hd') t ht]
        rintro ⟨u, hu, h1, h2, -⟩
        refine ray_disjoint hdD (hds d' (List.mem_cons_of_mem d hd')) hne mr mc
          (u + 1) t (by omega) ht ⟨?_, ?_⟩
        · rw [← shift_ray mr d.1 u]; omega
        · rw [← shift_ray mc d.2 u]; omega
      rw [ih _ B0 hwf1 (fun d' hd' => hds d' (List.mem_cons_of_mem d hd')) hnd'
        hagree1 r c]
      by_cases hEx : ∃ d' ∈ ds, captures_in_dir B0 mr d'.1 mc d'.2 w = true ∧
          ∃ j : Nat, 1 ≤ j ∧ r = mr + (j : Int) * d'.1 ∧ c = mc + (j : Int) * d'.2 ∧
            ∀ i : Nat, 1 ≤ i → i ≤ j →
              bget B0 (mr + (i : Int) * d'.1) (mc + (i : Int) * d'.2) = e
      · have hcons : ∃ d'' ∈ d :: ds, captures_in_dir B0 mr d''.1 mc d''.2 w = true ∧
            ∃ j : Nat, 1 ≤ j ∧ r = mr + (j : Int) * d''.1 ∧ c = mc + (j : Int) * d''.2 ∧
              ∀ i : Nat, 1 ≤ i → i ≤ j →
                bget B0 (mr + (i : Int) * d''.1) (mc + (i : Int) * d''.2) = e := by
          obtain ⟨d', hd', hrest⟩ := hEx
          exact ⟨d', List.mem_cons_of_mem d hd', hrest⟩
        rw [if_pos hEx, if_pos hcons]
      · rw [if_neg hEx]
        by_cases hFd : ∃ j : Nat, 1 ≤ j ∧ r = mr + (j : Int) * d.1 ∧
            c = mc + (j : Int) * d.2 ∧
            ∀ i : Nat, 1 ≤ i → i ≤ j →
              bget B0 (mr + (i : Int) * d.1) (mc + (i : Int) * d.2) = e
        · have hcons : ∃ d'' ∈ d :: ds, captures_in_dir B0 mr d''.1 mc d''.2 w = true ∧
              ∃ j : Nat, 1 ≤ j ∧ r = mr + (j : Int) * d''.1 ∧ c = mc + (j : Int) * d''.2 ∧
                ∀ i : Nat, 1 ≤ i → i ≤ j →
                  bget B0 (mr + (i : Int) * d''.1) (mc + (i : Int) * d''.2) = e :=
            ⟨d, List.mem_cons_self d ds, hcap, hFd⟩
          rw [hflip, if_pos ((hiff r c).mpr hFd), if_pos hcons]
        · have hcons : ¬ ∃ d'' ∈ d :: ds, captures_in_dir B0 mr d''.1 mc d''.2 w = true ∧
              ∃ j : Nat, 1 ≤ j ∧ r = mr + (j : Int) * d''.1 ∧ c = mc + (j : Int) * d''.2 ∧
                ∀ i : Nat, 1 ≤ i → i ≤ j →
                  bget B0 (mr + (i : Int) * d''.1) (mc + (i : Int) * d''.2) = e := by
            rintro ⟨d'', hmem, hP⟩
            rcases List.mem_cons.mp hmem with rfl | htail
            · exact hFd hP.2
            · exact hEx ⟨d'', htail, hP⟩
          rw [hflip, if_neg (fun h => hFd ((hiff r c).mp h)), if_neg hcons]
    · rw [if_neg (by rw [hcap_eq]; exact fun h => hcap h)]
      rw [ih B B0 hwf (fun d' hd' => hds d' (List.mem_cons_of_mem d hd')) hnd'
        (fun d' hd' => hagree d' (List.mem_cons_of_mem d hd')) r c]
      by_cases hEx : ∃ d' ∈ ds, captures_in_dir B0 mr d'.1 mc d'.2 w = true ∧
          ∃ j : Nat, 1 ≤ j ∧ r = mr + (j : Int) * d'.1 ∧ c = mc + (j : Int) * d'.2 ∧
            ∀ i : Nat, 1 ≤ i → i ≤ j →
              bget B0 (mr + (i : Int) * d'.1) (mc + (i : Int) * d'.2) = e
      · have hcons : ∃ d'' ∈ d :: ds, captures_in_dir B0 mr d''.1 mc d''.2 w = true ∧
            ∃ j : Nat, 1 ≤ j ∧ r = mr + (j : Int) * d''.1 ∧ c = mc + (j : Int) * d''.2 ∧
              ∀ i : Nat, 1 ≤ i → i ≤ j →
                bget B0 (mr + (i : Int) * d''.1) (mc + (i : Int) * d''.2) = e := by
          obtain ⟨d', hd', hrest⟩ := hEx
          exact ⟨d', List.mem_cons_of_mem d hd', hrest⟩
        rw [if_pos hEx, if_pos hcons]
      · have hcons : ¬ ∃ d'' ∈ d :: ds, captures_in_dir B0 mr d''.1 mc d''.2 w = true ∧
            ∃ j : Nat, 1 ≤ j ∧ r = mr + (j : Int) * d''.1 ∧ c = mc + (j : Int) * d''.2 ∧
              ∀ i : Nat, 1 ≤ i → i ≤ j →
                bget B0 (mr + (i : Int) * d''.1) (mc + (i : Int) * d''.2) = e := by
          rintro ⟨d'', hmem, hP⟩
          rcases List.mem_cons.mp hmem with rfl | htail
          · exact absurd hP.1 hcap
          · exact hEx ⟨d'', htail, hP⟩
        rw [if_neg hEx, if_neg hcons]

open Classical in
/-- C2: `play_move` returns a board that equals the input everywhere
except that the target cell now holds the mover's color and, for each
direction whose capture test holds on the input board, exactly the
contiguous run of opposing pieces between the target and the first
enclosing own-color cell (exclusive) is flipped to the mover's color.
(The embedding is pure, so the input board itself is unchanged; the
source guarantees this by deep-copying before mutating.) -/
theorem c2_play_move_frame (board : Board) (mr mc : Int) (white_turn : Bool)
    (hwf : wf8 board) (hmr0 : 0 ≤ mr) (hmr8 : mr < 8) (hmc0 : 0 ≤ mc) (hmc8 : mc < 8)
    (hempty : bget board mr mc = NOBODY) :
    ∀ r c : Int,
      bget (play_move board (mr, mc) white_turn) r c =
        if r = mr ∧ c = mc then (if white_turn then WHITE else BLACK)
        else if flippedSpec board mr mc white_turn r c then
          (if white_turn then WHITE else BLACK)
        else bget board r c := by
  intro r c
  rw [play_move_eq]
  have hwfB' : wf8 (bset board mr mc (if white_turn then WHITE else BLACK)) :=
    wf8_bset hwf (by cases white_turn <;> simp)
  have hag : ∀ d ∈ DIRECTIONS, ∀ t : Nat, 1 ≤ t →
      bget (bset board mr mc (if white_turn then WHITE else BLACK))
          (mr + (t : Int) * d.1) (mc + (t : Int) * d.2) =
        bget board (mr + (t : Int) * d.1) (mc + (t : Int) * d.2) := by
    intro d hd t ht
    have hdnz : ¬ (d.1 = 0 ∧ d.2 = 0) := by
      rcases d with ⟨d1, d2⟩
      exact dir_nonzero hd
    exact bget_bset_ne _ (ray_ne_center hdnz mr mc t ht)
  rw [capture_eq]
  rw [capture_fold_spec mr mc white_turn (if white_turn then BLACK else WHITE) rfl
    hmr0 hmr8 hmc0 hmc8 DIRECTIONS _ board hwfB' (fun d hd => hd) (by decide) hag r c]
  have hflipneg : -(if white_turn then BLACK else WHITE) =
      (if white_turn then WHITE else BLACK) := by
    cases white_turn <;> decide
  by_cases hc : r = mr ∧ c = mc
  · have hFc : ¬ ∃ d ∈ DIRECTIONS, captures_in_dir board mr d.1 mc d.2 white_turn = true ∧
        ∃ j : Nat, 1 ≤ j ∧ r = mr + (j : Int) * d.1 ∧ c = mc + (j : Int) * d.2 ∧
          ∀ i : Nat, 1 ≤ i → i ≤ j →
            bget board (mr + (i : Int) * d.1) (mc + (i : Int) * d.2) =
              (if white_turn then BLACK else WHITE) := by
      rintro ⟨d, hd, hcap, j, hj1, hjr, hjc, -⟩
      have hdnz : ¬ (d.1 = 0 ∧ d.2 = 0) := by
        rcases d with ⟨d1, d2⟩
        exact dir_nonzero hd
      refine ray_ne_center hdnz mr mc j hj1 ⟨?_, ?_⟩
      · have := hc.1; omega
      · have := hc.2; omega
    rw [if_pos hc, if_neg hFc, hc.1, hc.2, bget_bset_eq hwf ⟨hmr0, hmr8, hmc0, hmc8⟩]
  · rw [if_neg hc, hflipneg, bget_bset_ne _ hc]

/-- Witness for C2: playing White at (2,4) on the starting board flips the
Black piece at (3,4) to White. -/
theorem c2_witness : bget (play_move starting_board (2, 4) true) 3 4 = WHITE := by
  have hflip : flippedSpec starting_board 2 4 true 3 4 := by
    refine ⟨(1, 0), by decide, by decide, 1, le_refl 1, by decide, by decide, ?_⟩
    intro i hi1 hi2
    have : i = 1 := by omega
    subst this
    decide
  have h := c2_play_move_frame starting_board 2 4 true (by decide) (by decide)
    (by decide) (by decide) (by decide) (by decide) 3 4
  rw [h, if_neg (by decide), if_pos hflip]
  decide

/-! ### C9 amended: play_move is total and validates nothing -/

/-- C9 amended: `play_move` performs no validation at all: for any board,
any in-range target (occupied or not, capturing or not) and either side,
it silently returns a board whose target cell holds the mover's color. -/
theorem c9_amended (board : Board) (move : Int × Int) (w : Bool) (hwf : wf8 board)
    (hin : inB move.1 move.2) :
    bget (play_move board move w) move.1 move.2 = (if w then WHITE else BLACK) := by
  obtain ⟨h1, h2, h3, h4⟩ := hin
  rw [play_move_eq, capture_eq]
  have hwfB' : wf8 (bset board move.1 move.2 (if w then WHITE else BLACK)) :=
    wf8_bset hwf (by cases w <;> simp)
  rw [capture_fold_spec move.1 move.2 w (if w then BLACK else WHITE) rfl
    h1 h2 h3 h4 DIRECTIONS _ _ hwfB' (fun d hd => hd) (by decide)
    (fun d hd t ht => rfl) move.1 move.2]
  have hFc : ¬ ∃ d ∈ DIRECTIONS,
      captures_in_dir (bset board move.1 move.2 (if w then WHITE else BLACK))
        move.1 d.1 move.2 d.2 w = true ∧
      ∃ j : Nat, 1 ≤ j ∧ move.1 = move.1 + (j : Int) * d.1 ∧
        move.2 = move.2 + (j : Int) * d.2 ∧
        ∀ i : Nat, 1 ≤ i → i ≤ j →
          bget (bset board move.1 move.2 (if w then WHITE else BLACK))
            (move.1 + (i : Int) * d.1) (move.2 + (i : Int) * d.2) =
            (if w then BLACK else WHITE) := by
    rintro ⟨d, hd, hcap, j, hj1, hjr, hjc, -⟩
    have hdnz : ¬ (d.1 = 0 ∧ d.2 = 0) := by
      rcases d with ⟨d1, d2⟩
      exact dir_nonzero hd
    refine ray_ne_center hdnz move.1 move.2 j hj1 ⟨?_, ?_⟩
    · omega
    · omega
  rw [if_neg hFc, bget_bset_eq hwf ⟨h1, h2, h3, h4⟩]

/-- Witness for C9's amended claim: the occupied cell (3,3) is silently
overwritten with Black's piece. -/
theorem c9_witness :
    bget (play_move starting_board (3, 3) false) 3 3 = (if false then WHITE else BLACK) :=
  c9_amended starting_board (3, 3) false (by decide) (by decide)

/-! ### C7: root move selection in play() (code bug) -/

/-- C7: how `play()` actually scores a root candidate diverges from the
claimed (and documented) evaluation.  After applying White's move (2,4) to
the starting board, `play()` calls `minimax_value(new_board, True,
depth, -inf, inf)` - treating White as the side to move again and not
decrementing the depth - which at depth 1 yields 6 (White "moves twice"),
while the claimed evaluation `minimax_value(new_board, False, depth - 1,
-inf, inf)` yields 3.  This contradicts `minimax_value`'s own docstring
("white_turn - True iff white would get to play next on the given
board"): after White's move, Black plays next. -/
theorem c7_root_search_divergence :
    root_candidate_value starting_board (2, 4) 1 = 6 ∧
    root_candidate_value_claim starting_board (2, 4) 1 = 3 ∧
    root_candidate_value starting_board (2, 4) 1 ≠
      root_candidate_value_claim starting_board (2, 4) 1 := by
  refine ⟨by decide, by decide, by decide⟩

/-! ### C1: alpha-beta soundness -/

/-- The Knuth-Moore fail-soft relation between the value `r` returned by
the pruning search under window (alpha, beta) and the exhaustive value
`v`: inside the window the result is exact; a fail-low result is an upper
bound on `v`; a fail-high result is a lower bound on `v`. -/
abbrev ABINV (r v alpha beta : Int) : Prop :=
  (alpha < r → r < beta → r = v) ∧ (r ≤ alpha → v ≤ r) ∧ (beta ≤ r → r ≤ v)

lemma ite_gt_max (s M : Int) : (if s > M then s else M) = max M s := by
  rcases lt_trichotomy M s with h | h | h
  · rw [if_pos h, max_eq_right h.le]
  · subst h
    rw [if_neg (lt_irrefl M), max_self]
  · rw [if_neg (not_lt.mpr h.le), max_eq_left h.le]

lemma foldl_max_init (l : List Int) : ∀ a b : Int,
    l.foldl max (max a b) = max a (l.foldl max b) := by
  induction l with
  | nil => intro a b; rfl
  | cons x l ih =>
    intro a b
    show l.foldl max (max (max a b) x) = max a (l.foldl max (max b x))
    rw [max_assoc, ih]

lemma foldl_min_init (l : List Int) : ∀ a b : Int,
    l.foldl min (min a b) = min a (l.foldl min b) := by
  induction l with
  | nil => intro a b; rfl
  | cons x l ih =>
    intro a b
    show l.foldl min (min (min a b) x) = min a (l.foldl min (min b x))
    rw [min_assoc, ih]

lemma listMax_nil : listMax [] = SYS_MAXSIZE * -1 := rfl

lemma listMin_nil : listMin [] = SYS_MAXSIZE := rfl

lemma listMax_cons (x : Int) (l : List Int) : listMax (x :: l) = max x (listMax l) := by
  show l.foldl max (max (SYS_MAXSIZE * -1) x) = max x (l.foldl max (SYS_MAXSIZE * -1))
  rw [max_comm (SYS_MAXSIZE * -1) x, foldl_max_init]

lemma listMin_cons (x : Int) (l : List Int) : listMin (x :: l) = min x (listMin l) := by
  show l.foldl min (min SYS_MAXSIZE x) = min x (l.foldl min SYS_MAXSIZE)
  rw [min_comm SYS_MAXSIZE x, foldl_min_init]

lemma neg_sys_le : SYS_MAXSIZE * -1 ≤ (-100 : Int) := by decide

lemma sys_ge : (100 : Int) ≤ SYS_MAXSIZE := by decide

lemma listMax_bounds : ∀ l : List Int, l ≠ [] →
    (∀ x ∈ l, -100 ≤ x ∧ x ≤ 100) → -100 ≤ listMax l ∧ listMax l ≤ 100 := by
  intro l
  induction l with
  | nil => intro h; exact absurd rfl h
  | cons x l ih =>
    intro _ hb
    obtain ⟨hx1, hx2⟩ := hb x (List.mem_cons_self x l)
    rw [listMax_cons]
    cases l with
    | nil =>
      rw [listMax_nil, max_eq_left (le_trans neg_sys_le hx1)]
      exact ⟨hx1, hx2⟩
    | cons y l' =>
      obtain ⟨h1, h2⟩ := ih (by simp) (fun z hz => hb z (List.mem_cons_of_mem x hz))
      constructor
      · exact le_trans hx1 (le_max_left _ _)
      · exact max_le hx2 h2

lemma listMin_bounds : ∀ l : List Int, l ≠ [] →
    (∀ x ∈ l, -100 ≤ x ∧ x ≤ 100) → -100 ≤ listMin l ∧ listMin l ≤ 100 := by
  intro l
  induction l with
  | nil => intro h; exact absurd rfl h
  | cons x l ih =>
    intro _ hb
    obtain ⟨hx1, hx2⟩ := hb x (List.mem_cons_self x l)
    rw [listMin_cons]
    cases l with
    | nil =>
      rw [listMin_nil, min_eq_left (le_trans hx2 sys_ge)]
      exact ⟨hx1, hx2⟩
    | cons y l' =>
      obtain ⟨h1, h2⟩ := ih (by simp) (fun z hz => hb z (List.mem_cons_of_mem x hz))
      constructor
      · exact le_min hx1 h1
      · exact le_trans (min_le_left _ _) hx2

lemma exh_scores_cons (recur : Board → Option Int) (board : Board) (w : Bool)
    (m : Int × Int) (ms : List (Int × Int)) :
    exh_scores recur board w (m :: ms) =
      (recur (play_move board m w)).bind fun v =>
        (exh_scores recur board w ms).bind fun vs => some (v :: vs) := rfl

lemma exh_scores_map (recur : Board → Option Int) (board : Board) (w : Bool)
    (vfun : (Int × Int) → Int) :
    ∀ moves : List (Int × Int),
      (∀ m ∈ moves, recur (play_move board m w) = some (vfun m)) →
      exh_scores recur board w moves = some (moves.map vfun) := by
  intro moves
  induction moves with
  | nil => intro _; rfl
  | cons m ms ih =>
    intro h
    rw [exh_scores_cons, h m (List.mem_cons_self m ms)]
    simp only [Option.some_bind]
    rw [ih (fun mm hmm => h mm (List.mem_cons_of_mem m hmm))]
    rfl

lemma minimax_exh_fuel_succ (fuel : Nat) (board : Board) (w : Bool) (d : Nat) :
    minimax_exh_fuel (fuel + 1) board w d =
      if d = 0 then
        some ((count_cells board WHITE : Int) - (count_cells board BLACK : Int))
      else if check_game_over board = TIE then some 0
      else if check_game_over board = WHITE then some WIN_VAL
      else if check_game_over board = BLACK then some (WIN_VAL * -1)
      else if w then
        if (generate_legal_moves board true).length = 0 then
          minimax_exh_fuel fuel board false d
        else
          (exh_scores (fun bb => minimax_exh_fuel fuel bb false (d - 1)) board true
            (generate_legal_moves board true)).bind fun vs => some (listMax vs)
      else
        if (generate_legal_moves board false).length = 0 then
          minimax_exh_fuel fuel board true d
        else
          (exh_scores (fun bb => minimax_exh_fuel fuel bb true (d - 1)) board false
            (generate_legal_moves board false)).bind fun vs => some (listMin vs) := rfl

/-- The maximizing loop of `find_max_score` satisfies the fail-soft
alpha-beta relation against the exhaustive maximum of the child values. -/
lemma find_max_loop_abinv (board : Board) (beta : Int)
    (recur : Board → Int → Option Int) (vfun : (Int × Int) → Int) :
    ∀ moves : List (Int × Int), moves ≠ [] →
      (∀ m ∈ moves, -100 ≤ vfun m ∧ vfun m ≤ 100 ∧
        ∀ a' : Int, a' < beta →
          ∃ s, recur (play_move board m true) a' = some s ∧
            -100 ≤ s ∧ s ≤ 100 ∧ ABINV s (vfun m) a' beta) →
      ∀ M a : Int, a < beta →
        ∃ S, find_max_loop recur board moves M a beta = some (max M S) ∧
          -100 ≤ S ∧ S ≤ 100 ∧ ABINV S (listMax (moves.map vfun)) a beta := by
  intro moves
  induction moves with
  | nil => intro h; exact absurd rfl h
  | cons m ms ih =>
    intro _ hch M a ha
    simp only [List.map_cons, listMax_cons]
    obtain ⟨hv1, hv2, hrec⟩ := hch m (List.mem_cons_self m ms)
    obtain ⟨s, hs, hs1, hs2, hsABI⟩ := hrec a ha
    rw [find_max_loop_cons, hs]
    simp only [Option.some_bind]
    rw [ite_gt_max s M, ite_gt_max s a]
    by_cases hbr : beta ≤ max a s
    · have hbs : beta ≤ s := by
        rcases le_max_iff.mp hbr with h | h
        · omega
        · exact h
      rw [if_pos hbr]
      refine ⟨s, rfl, hs1, hs2, ?_, ?_, ?_⟩
      · intro _ h2; omega
      · intro h1; omega
      · intro _
        have h3 := hsABI.2.2 hbs
        have h4 : vfun m ≤ max (vfun m) (listMax (ms.map vfun)) := le_max_left _ _
        omega
    · rw [if_neg hbr]
      have hsb : s < beta := by
        by_contra h
        exact hbr (le_max_of_le_right (not_lt.mp h))
      have ha' : max a s < beta := max_lt ha hsb
      cases ms with
      | nil =>
        have hW : max (vfun m) (listMax (List.map vfun [])) = vfun m := by
          simp only [List.map_nil, listMax_nil]
          exact max_eq_left (le_trans neg_sys_le hv1)
        rw [hW]
        exact ⟨s, rfl, hs1, hs2, hsABI⟩
      | cons m2 ms2 =>
        obtain ⟨S', hloop, hS1, hS2, hABI'⟩ := ih (by simp)
          (fun mm hmm => hch mm (List.mem_cons_of_mem m hmm)) (max M s) (max a s) ha'
        refine ⟨max s S', ?_, le_trans hs1 (le_max_left _ _), max_le hs2 hS2,
          ?_, ?_, ?_⟩
        · rw [hloop, max_assoc]
        · -- in-window: exact value
          intro h1 h2
          rcases le_or_lt S' s with hcase | hcase
          · have hmax : max s S' = s := max_eq_left hcase
            rw [hmax] at h1 h2 ⊢
            have hexact : s = vfun m := hsABI.1 h1 h2
            have hS'le : S' ≤ max a s := le_max_of_le_right hcase
            have hW'le : listMax (List.map vfun (m2 :: ms2)) ≤ S' := hABI'.2.1 hS'le
            rw [← hexact, max_eq_left (by omega)]
          · have hmax : max s S' = S' := max_eq_right hcase.le
            rw [hmax] at h1 h2 ⊢
            have hlt : max a s < S' := max_lt h1 hcase
            have hexact' : S' = listMax (List.map vfun (m2 :: ms2)) := hABI'.1 hlt h2
            have hvm : vfun m ≤ S' := by
              rcases le_or_lt s a with hsa | has
              · have := hsABI.2.1 hsa
                omega
              · have := hsABI.1 has hsb
                omega
            rw [← hexact', max_eq_right hvm]
        · -- fail low: upper bound
          intro hle
          have h1 : s ≤ a := le_trans (le_max_left _ _) hle
          have h2 : S' ≤ a := le_trans (le_max_right _ _) hle
          have hc1 := hsABI.2.1 h1
          have hc2 := hABI'.2.1 (le_max_of_le_left h2)
          exact max_le_max hc1 hc2
        · -- fail high: lower bound
          intro hge
          have hS'ge : beta ≤ S' := by
            rcases le_max_iff.mp hge with h | h
            · omega
            · exact h
          have h3 := hABI'.2.2 hS'ge
          rw [max_eq_right (by omega : s ≤ S')]
          exact le_trans h3 (le_max_right _ _)

/-- The minimizing loop of `find_min_score` satisfies the dual fail-soft
alpha-beta relation against the exhaustive minimum of the child values. -/
lemma find_min_loop_abinv (board : Board) (alpha : Int)
    (recur : Board → Int → Option Int) (vfun : (Int × Int) → Int) :
    ∀ moves : List (Int × Int), moves ≠ [] →
      (∀ m ∈ moves, -100 ≤ vfun m ∧ vfun m ≤ 100 ∧
        ∀ b' : Int, alpha < b' →
          ∃ s, recur (play_move board m false) b' = some s ∧
            -100 ≤ s ∧ s ≤ 100 ∧ ABINV s (vfun m) alpha b') →
      ∀ M b : Int, alpha < b →
        ∃ S, find_min_loop recur board moves M alpha b = some (min M S) ∧
          -100 ≤ S ∧ S ≤ 100 ∧ ABINV S (listMin (moves.map vfun)) alpha b := by
  intro moves
  induction moves with
  | nil => intro h; exact absurd rfl h
  | cons m ms ih =>
    intro _ hch M b hb
    simp only [List.map_cons, listMin_cons]
    obtain ⟨hv1, hv2, hrec⟩ := hch m (List.mem_cons_self m ms)
    obtain ⟨s, hs, hs1, hs2, hsABI⟩ := hrec b hb
    rw [find_min_loop_cons, hs]
    simp only [Option.some_bind]
    by_cases hbr : min b s ≤ alpha
    · have hbs : s ≤ alpha := by
        rcases min_le_iff.mp hbr with h | h
        · omega
        · exact h
      rw [if_pos hbr]
      refine ⟨s, rfl, hs1, hs2, ?_, ?_, ?_⟩
      · intro h1 _; omega
      · intro _
        have h3 := hsABI.2.1 hbs
        have h4 : min (vfun m) (listMin (ms.map vfun)) ≤ vfun m := min_le_left _ _
        omega
      · intro h1; omega
    · rw [if_neg hbr]
      have hsb : alpha < s := by
        by_contra h
        exact hbr (min_le_of_right_le (not_lt.mp h))
      have hb' : alpha < min b s := lt_min hb hsb
      cases ms with
      | nil =>
        have hW : min (vfun m) (listMin (List.map vfun [])) = vfun m := by
          simp only [List.map_nil, listMin_nil]
          exact min_eq_left (le_trans hv2 sys_ge)
        rw [hW]
        exact ⟨s, rfl, hs1, hs2, hsABI⟩
      | cons m2 ms2 =>
        obtain ⟨S', hloop, hS1, hS2, hABI'⟩ := ih (by simp)
          (fun mm hmm => hch mm (List.mem_cons_of_mem m hmm)) (min M s) (min b s) hb'
        refine ⟨min s S', ?_, le_min hs1 hS1, le_trans (min_le_left _ _) hs2,
          ?_, ?_, ?_⟩
        · rw [hloop, min_assoc]
        · -- in-window: exact value
          intro h1 h2
          rcases le_or_lt s S' with hcase | hcase
          · have hmin : min s S' = s := min_eq_left hcase
            rw [hmin] at h1 h2 ⊢
            have hexact : s = vfun m := hsABI.1 h1 h2
            have hS'le : min b s ≤ S' := min_le_of_right_le hcase
            have hW'le : S' ≤ listMin (List.map vfun (m2 :: ms2)) := hABI'.2.2 hS'le
            rw [← hexact, min_eq_left (by omega)]
          · have hmin : min s S' = S' := min_eq_right hcase.le
            rw [hmin] at h1 h2 ⊢
            have hlt : S' < min b s := lt_min h2 hcase
            have hexact' : S' = listMin (List.map vfun (m2 :: ms2)) := hABI'.1 h1 hlt
            have hvm : S' ≤ vfun m := by
              rcases le_or_lt b s with hsa | has
              · have := hsABI.2.2 hsa
                omega
              · have := hsABI.1 hsb has
                omega
            rw [← hexact', min_eq_right hvm]
        · -- fail low: upper bound
          intro hle
          have hS'le : S' ≤ alpha := by
            rcases min_le_iff.mp hle with h | h
            · omega
            · exact h
          have h3 := hABI'.2.1 hS'le
          rw [min_eq_right (by omega : S' ≤ s)]
          exact le_trans (min_le_right _ _) h3
        · -- fail high: lower bound
          intro hge
          have h1 : b ≤ s := le_trans hge (min_le_left _ _)
          have h2 : b ≤ S' := le_trans hge (min_le_right _ _)
          have hc1 := hsABI.2.2 h1
          have hc2 := hABI'.2.2 (le_trans (min_le_left b s) h2)
          exact min_le_min hc1 hc2

/-- Fail-soft alpha-beta invariant for the whole search: with sufficient
fuel, the pruning search and the exhaustive search both succeed, both stay
within [-100, 100], and the pruning result relates to the exhaustive value
by the Knuth-Moore window relation. -/
lemma minimax_abinv :
    ∀ (fuel : Nat) (board : Board) (w : Bool) (d : Nat) (alpha beta : Int),
      wf8 board → alpha < beta → FuelOK fuel board w d →
      ∃ r v, minimax_fuel fuel board w d alpha beta = some r ∧
        minimax_exh_fuel fuel board w d = some v ∧
        -100 ≤ r ∧ r ≤ 100 ∧ -100 ≤ v ∧ v ≤ 100 ∧ ABINV r v alpha beta := by
  intro fuel
  induction fuel with
  | zero =>
    intro b w d alpha beta _ _ hok
    rcases hok with h | ⟨h, _⟩ <;> omega
  | succ fuel ih =>
    intro b w d alpha beta hwf hab hok
    rw [minimax_fuel_succ, minimax_exh_fuel_succ]
    by_cases hd : d = 0
    · rw [if_pos hd, if_pos hd]
      have hev := evaluation_bound hwf
      unfold evaluation_function at hev
      exact ⟨_, _, rfl, rfl, by omega, by omega, by omega, by omega,
        fun _ _ => rfl, fun _ => le_refl _, fun _ => le_refl _⟩
    · rw [if_neg hd, if_neg hd]
      rcases check_game_over_cases b with hgc | hgc | hgc | hgc <;> rw [hgc]
      · -- game not over
        have hnt : ¬ (NOBODY = TIE) := by decide
        have hnw : ¬ (NOBODY = WHITE) := by decide
        have hnbk : ¬ (NOBODY = BLACK) := by decide
        rw [if_neg hnt, if_neg hnt, if_neg hnw, if_neg hnw, if_neg hnbk, if_neg hnbk]
        cases w with
        | true =>
          rw [if_pos rfl, if_pos rfl, find_max_score_eq]
          by_cases hleg : (generate_legal_moves b true).length = 0
          · -- forced pass for White
            rw [if_pos hleg, if_pos hleg]
            have h1 : generate_legal_moves b true = [] := List.length_eq_zero.mp hleg
            have h2 : generate_legal_moves b false ≠ [] := by
              rcases (check_game_over_nobody_iff b).mp hgc with h | h
              · exact absurd h1 h
              · exact h
            apply ih b false d alpha beta hwf hab
            right
            refine ⟨?_, h2⟩
            rcases hok with hk | ⟨hk, hkk⟩
            · omega
            · exact absurd h1 hkk
          · rw [if_neg hleg, if_neg hleg]
            have hne : generate_legal_moves b true ≠ [] :=
              fun h => hleg (by rw [h]; rfl)
            have hchfuel : 2 * (d - 1) + 2 ≤ fuel := by
              rcases hok with hk | ⟨hk, _⟩ <;> omega
            have hchild : ∀ m ∈ generate_legal_moves b true,
                minimax_exh_fuel fuel (play_move b m true) false (d - 1) =
                  some ((minimax_exh_fuel fuel (play_move b m true) false (d - 1)).getD 0) ∧
                -100 ≤ (minimax_exh_fuel fuel (play_move b m true) false (d - 1)).getD 0 ∧
                (minimax_exh_fuel fuel (play_move b m true) false (d - 1)).getD 0 ≤ 100 ∧
                ∀ a' : Int, a' < beta →
                  ∃ s, minimax_fuel fuel (play_move b m true) false (d - 1) a' beta =
                      some s ∧ -100 ≤ s ∧ s ≤ 100 ∧
                    ABINV s ((minimax_exh_fuel fuel (play_move b m true) false
                      (d - 1)).getD 0) a' beta := by
              intro m hm
              have hwfc := wf8_play_move hwf m true
              obtain ⟨r0, v0, hr0, hv0, _, _, hv01, hv02, _⟩ :=
                ih (play_move b m true) false (d - 1) alpha beta hwfc hab (Or.inl hchfuel)
              refine ⟨by rw [hv0]; rfl, by rw [hv0]; exact hv01, by rw [hv0]; exact hv02, ?_⟩
              intro a' ha'
              obtain ⟨r1, v1, hr1, hv1, hb1, hb2, _, _, hABI1⟩ :=
                ih (play_move b m true) false (d - 1) a' beta hwfc ha' (Or.inl hchfuel)
              refine ⟨r1, hr1, hb1, hb2, ?_⟩
              rw [hv1]
              exact hABI1
            obtain ⟨S, hloop, hS1, hS2, hABI⟩ := find_max_loop_abinv b beta
              (fun bb a' => minimax_fuel fuel bb false (d - 1) a' beta)
              (fun m => (minimax_exh_fuel fuel (play_move b m true) false (d - 1)).getD 0)
              (generate_legal_moves b true) hne
              (fun m hm => ⟨(hchild m hm).2.1, (hchild m hm).2.2.1,
                fun a' ha' => (hchild m hm).2.2.2 a' ha'⟩)
              (SYS_MAXSIZE * -1) alpha hab
            have hscores := exh_scores_map
              (fun bb => minimax_exh_fuel fuel bb false (d - 1)) b true
              (fun m => (minimax_exh_fuel fuel (play_move b m true) false (d - 1)).getD 0)
              (generate_legal_moves b true) (fun m hm => (hchild m hm).1)
            have hvbounds := listMax_bounds
              ((generate_legal_moves b true).map
                (fun m => (minimax_exh_fuel fuel (play_move b m true) false (d - 1)).getD 0))
              (fun h => hne (List.map_eq_nil_iff.mp h))
              (by
                intro x hx
                obtain ⟨m, hm, rfl⟩ := List.mem_map.mp hx
                exact ⟨(hchild m hm).2.1, (hchild m hm).2.2.1⟩)
            refine ⟨S, _, ?_, ?_, hS1, hS2, hvbounds.1, hvbounds.2, hABI⟩
            · rw [hloop, max_eq_right (le_trans neg_sys_le hS1)]
            · rw [hscores]
              rfl
        | false =>
          have hfw : ¬ (false = true) := by decide
          rw [if_neg hfw, if_neg hfw, find_min_score_eq]
          by_cases hleg : (generate_legal_moves b false).length = 0
          · -- forced pass for Black
            rw [if_pos hleg, if_pos hleg]
            have h1 : generate_legal_moves b false = [] := List.length_eq_zero.mp hleg
            have h2 : generate_legal_moves b true ≠ [] := by
              rcases (check_game_over_nobody_iff b).mp hgc with h | h
              · exact h
              · exact absurd h1 h
            apply ih b true d alpha beta hwf hab
            right
            refine ⟨?_, h2⟩
            rcases hok with hk | ⟨hk, hkk⟩
            · omega
            · exact absurd h1 hkk
          · rw [if_neg hleg, if_neg hleg]
            have hne : generate_legal_moves b false ≠ [] :=
              fun h => hleg (by rw [h]; rfl)
            have hchfuel : 2 * (d - 1) + 2 ≤ fuel := by
              rcases hok with hk | ⟨hk, _⟩ <;> omega
            have hchild : ∀ m ∈ generate_legal_moves b false,
                minimax_exh_fuel fuel (play_move b m false) true (d - 1) =
                  some ((minimax_exh_fuel fuel (play_move b m false) true (d - 1)).getD 0) ∧
                -100 ≤ (minimax_exh_fuel fuel (play_move b m false) true (d - 1)).getD 0 ∧
                (minimax_exh_fuel fuel (play_move b m false) true (d - 1)).getD 0 ≤ 100 ∧
                ∀ b' : Int, alpha < b' →
                  ∃ s, minimax_fuel fuel (play_move b m false) true (d - 1) alpha b' =
                      some s ∧ -100 ≤ s ∧ s ≤ 100 ∧
                    ABINV s ((minimax_exh_fuel fuel (play_move b m false) true
                      (d - 1)).getD 0) alpha b' := by
              intro m hm
              have hwfc := wf8_play_move hwf m false
              obtain ⟨r0, v0, hr0, hv0, _, _, hv01, hv02, _⟩ :=
                ih (play_move b m false) true (d - 1) alpha beta hwfc hab (Or.inl hchfuel)
              refine ⟨by rw [hv0]; rfl, by rw [hv0]; exact hv01, by rw [hv0]; exact hv02, ?_⟩
              intro b' hb'
              obtain ⟨r1, v1, hr1, hv1, hb1, hb2, _, _, hABI1⟩ :=
                ih (play_move b m false) true (d - 1) alpha b' hwfc hb' (Or.inl hchfuel)
              refine ⟨r1, hr1, hb1, hb2, ?_⟩
              rw [hv1]
              exact hABI1
            obtain ⟨S, hloop, hS1, hS2, hABI⟩ := find_min_loop_abinv b alpha
              (fun bb b' => minimax_fuel fuel bb true (d - 1) alpha b')
              (fun m => (minimax_exh_fuel fuel (play_move b m false) true (d - 1)).getD 0)
              (generate_legal_moves b false) hne
              (fun m hm => ⟨(hchild m hm).2.1, (hchild m hm).2.2.1,
                fun b' hb' => (hchild m hm).2.2.2 b' hb'⟩)
              SYS_MAXSIZE beta hab
            have hscores := exh_scores_map
              (fun bb => minimax_exh_fuel fuel bb true (d - 1)) b false
              (fun m => (minimax_exh_fuel fuel (play_move b m false) true (d - 1)).getD 0)
              (generate_legal_moves b false) (fun m hm => (hchild m hm).1)
            have hvbounds := listMin_bounds
              ((generate_legal_moves b false).map
                (fun m => (minimax_exh_fuel fuel (play_move b m false) true (d - 1)).getD 0))
              (fun h => hne (List.map_eq_nil_iff.mp h))
              (by
                intro x hx
                obtain ⟨m, hm, rfl⟩ := List.mem_map.mp hx
                exact ⟨(hchild m hm).2.1, (hchild m hm).2.2.1⟩)
            refine ⟨S, _, ?_, ?_, hS1, hS2, hvbounds.1, hvbounds.2, hABI⟩
            · rw [hloop, min_eq_right (le_trans hS2 sys_ge)]
            · rw [hscores]
              rfl
      · -- TIE
        rw [if_pos rfl, if_pos rfl]
        exact ⟨0, 0, rfl, rfl, by decide, by decide, by decide, by decide,
          fun _ _ => rfl, fun _ => le_refl _, fun _ => le_refl _⟩
      · -- WHITE wins
        have hwt : ¬ (WHITE = TIE) := by decide
        rw [if_neg hwt, if_neg hwt, if_pos rfl, if_pos rfl]
        exact ⟨WIN_VAL, WIN_VAL, rfl, rfl, by decide, by decide, by decide, by decide,
          fun _ _ => rfl, fun _ => le_refl _, fun _ => le_refl _⟩
      · -- BLACK wins
        have hbt : ¬ (BLACK = TIE) := by decide
        have hbw : ¬ (BLACK = WHITE) := by decide
        rw [if_neg hbt, if_neg hbt, if_neg hbw, if_neg hbw, if_pos rfl, if_pos rfl]
        exact ⟨WIN_VAL * -1, WIN_VAL * -1, rfl, rfl, by decide, by decide, by decide,
          by decide, fun _ _ => rfl, fun _ => le_refl _, fun _ => le_refl _⟩

/-- C1: alpha-beta soundness.  For every 8x8 board, side to move and
remaining depth, `minimax_value` called with a fully open window (any
alpha below -WIN_VAL and beta above WIN_VAL, which covers the source's
float -inf / +inf) returns exactly the value of the exhaustive
depth-limited minimax with the same heuristic, terminal scoring and pass
rule and no pruning. -/
theorem c1_alpha_beta_soundness (board : Board) (white_turn : Bool) (d : Nat)
    (alpha beta : Int) (hwf : wf8 board) (ha : alpha < -WIN_VAL) (hb : WIN_VAL < beta) :
    minimax_value board white_turn d alpha beta = minimax_exh board white_turn d := by
  have ha' : alpha < -(100 : Int) := ha
  have hb' : (100 : Int) < beta := hb
  obtain ⟨r, v, hr, hv, hr1, hr2, _, _, habinv⟩ :=
    minimax_abinv (2 * d + 2) board white_turn d alpha beta hwf (by omega)
      (Or.inl (le_refl _))
  unfold minimax_value minimax_exh
  rw [hr, hv]
  have heq : r = v := habinv.1 (by omega) (by omega)
  rw [heq]

/-- Witness for C1: on the starting board at depth 1 with the (modelled)
fully open window, the pruning search and the exhaustive search agree. -/
theorem c1_witness :
    minimax_value starting_board true 1 NEG_INF POS_INF =
      minimax_exh starting_board true 1 ∧
    minimax_value starting_board true 1 NEG_INF POS_INF = 3 :=
  ⟨c1_alpha_beta_soundness starting_board true 1 NEG_INF POS_INF (by decide)
    (by decide) (by decide), by decide⟩

/-- Witness for C6 at the empty board: both sides stuck, counts equal, TIE. -/
theorem c6_witness :
    (check_game_over (List.replicate 8 (List.replicate 8 0)) ≠ NOBODY ↔
      generate_legal_moves (List.replicate 8 (List.replicate 8 0)) true = [] ∧
      generate_legal_moves (List.replicate 8 (List.replicate 8 0)) false = []) ∧
    check_game_over (List.replicate 8 (List.replicate 8 0)) = TIE := by
  refine ⟨(c6_game_over_iff_and_winner _).1, ?_⟩
  have h := (c6_game_over_iff_and_winner (List.replicate 8 (List.replicate 8 0))).2
    (by decide) (by decide)
  rw [h]; decide
